import Mathlib

/-!
Shallow embedding of the symbol extraction, graph construction and query
engine of `mcp-server.js` (swift-impact-mcp). The embedding models:

* the Shape A (SourceKitten) extractor `extractSymbols` / `extractMemberData`,
* the Shape B (Clang JSON) extractor `extractObjCSymbols`,
* the graph build inside `init_swift_repo` (type map, edges, indexes),
* the query helpers `findSymbol`, the usage scans of `explain_symbol`
  (inheritedBy, extendedIn, referencedIn) and `search_symbols`.

JavaScript objects are modelled as insertion-ordered association lists
over `String` keys; JavaScript string truthiness (empty string is falsy)
is modelled explicitly; optional JSON fields are `Option`s.
-/

/-- Truthiness of an optional JS string: `undefined`/`null` and the empty
string are falsy, every other string is truthy. -/
def jsTruthy : Option String → Bool
  | none => false
  | some s => decide (s ≠ "")

/-- Boolean prefix test on character lists (needle first). -/
def isPrefixB : List Char → List Char → Bool
  | [], _ => true
  | _ :: _, [] => false
  | a :: as, b :: bs => decide (a = b) && isPrefixB as bs

/-- Boolean infix test on character lists (needle first), scanning every
suffix of the haystack. -/
def isInfixB (pat : List Char) : List Char → Bool
  | [] => isPrefixB pat []
  | c :: rest => isPrefixB pat (c :: rest) || isInfixB pat rest

/-- JS `hay.includes(pat)`: substring containment. -/
def strContainsSub (hay pat : String) : Bool := isInfixB pat.data hay.data

/-- JS `s.startsWith(pat)`. -/
def jsStartsWith (s pat : String) : Bool := isPrefixB pat.data s.data

/-- JS `s.toLowerCase()` restricted to its ASCII behaviour. -/
def jsToLower (s : String) : String := ⟨s.data.map Char.toLower⟩

/-- Delete the first occurrence of `pat` from a character list. -/
def dropFirstOcc (pat : List Char) : List Char → List Char
  | [] => []
  | c :: rest =>
    if isPrefixB pat (c :: rest) then (c :: rest).drop pat.length
    else c :: dropFirstOcc pat rest

/-- JS `s.replace(pat, "")` for a non-empty plain-string pattern: deletes
the first occurrence of `pat`. -/
def jsReplaceOnce (s pat : String) : String := ⟨dropFirstOcc pat.data s.data⟩

/-- JS `path.join(a, b)` for an absolute `a` without trailing slash and a
relative `b`, the only combination the program produces. -/
def jsPathJoin (a b : String) : String := a ++ "/" ++ b

/-- The function `getRelativePath` of the source: strips the first
occurrence of `repoPath + "/"` from the full path when `repoPath` is
truthy, otherwise returns the path unchanged. -/
def getRelativePath (repo full : String) : String :=
  if repo = "" then full else jsReplaceOnce full (repo ++ "/")

/-- Lookup in an insertion-ordered association list (JS `m[k]`). -/
def alGet {α : Type} (k : String) : List (String × α) → Option α
  | [] => none
  | p :: rest => if p.1 = k then some p.2 else alGet k rest

/-- Assignment `m[k] = v` on a JS object: overwrites in place, appends a
new key at the end. -/
def alUpsert {α : Type} (k : String) (v : α) : List (String × α) → List (String × α)
  | [] => [(k, v)]
  | p :: rest => if p.1 = k then (k, v) :: rest else p :: alUpsert k v rest

/-- The JS pattern `if (!m[k]) m[k] = []; m[k].push(v)`. -/
def alPush {α : Type} (k : String) (v : α) : List (String × List α) → List (String × List α)
  | [] => [(k, [v])]
  | p :: rest => if p.1 = k then (k, p.2 ++ [v]) :: rest else p :: alPush k v rest

/-- The JS pattern `if (!m[k]) m[k] = []` on its own. -/
def alEnsure {α : Type} (k : String) : List (String × List α) → List (String × List α)
  | [] => [(k, [])]
  | p :: rest => if p.1 = k then p :: rest else p :: alEnsure k rest

/-- The SourceKitten accessibility prefix stripped by both extract paths. -/
def swiftAccessTag : String := "source.lang.swift.accessibility."

/-- Normalized symbol record, the element type of every `SymbolTable`
bucket. `extendedType` is only ever set on extension-bucket entries. -/
structure SymbolInfo where
  name : String
  kind : String
  file : String
  inheritedTypes : List String
  accessibility : Option String
  typeName : Option String
  offset : Option Int
  length : Option Int
  extendedType : Option String := none
deriving DecidableEq

/-- The per-unit symbol table: the seven buckets, in the key order of the
JS object literal (which `Object.values` preserves). -/
structure SymbolTable where
  classes : List SymbolInfo
  structs : List SymbolInfo
  protocols : List SymbolInfo
  functions : List SymbolInfo
  enums : List SymbolInfo
  extensions : List SymbolInfo
  vars : List SymbolInfo
deriving DecidableEq

/-- The empty symbol table both extractors start from. -/
def SymbolTable.empty : SymbolTable := ⟨[], [], [], [], [], [], []⟩

/-- A member record (property, method or initializer); fields a given
member list never sets stay `none`. -/
structure Member where
  name : String
  type : Option String := none
  returnType : Option String := none
  access : Option String := none
deriving DecidableEq

/-- The member triple stored per symbol name. -/
structure Members where
  properties : List Member
  methods : List Member
  initializers : List Member
deriving DecidableEq

/-- Shape A (SourceKitten) raw AST node. `inheritedtypes` holds the
`key.name` of each entry of `key.inheritedtypes`; `substructure` models
`key.substructure || []`. -/
inductive NodeA : Type where
  | mk (kind : Option String) (name : Option String)
       (inheritedtypes : Option (List String))
       (accessibility : Option String) (typename : Option String)
       (offset : Option Int) (length : Option Int)
       (substructure : List NodeA)

/-- Classification step of `extractSymbols.walk` for a node whose kind and
name tags are both truthy: case-sensitive substring dispatch on the kind
tag, first match wins, extensions additionally record `extendedType`. -/
def classifyA (file k n : String) (inh : List String) (acc : Option String)
    (tn : Option String) (off len : Option Int) (st : SymbolTable) : SymbolTable :=
  let info : SymbolInfo := ⟨n, k, file, inh, acc, tn, off, len, none⟩
  if strContainsSub k "class" then { st with classes := st.classes ++ [info] }
  else if strContainsSub k "struct" then { st with structs := st.structs ++ [info] }
  else if strContainsSub k "protocol" then { st with protocols := st.protocols ++ [info] }
  else if strContainsSub k "enum" then { st with enums := st.enums ++ [info] }
  else if strContainsSub k "extension" then
    { st with extensions := st.extensions ++ [{ info with extendedType := some n }] }
  else if strContainsSub k "function" || strContainsSub k "method" then
    { st with functions := st.functions ++ [info] }
  else if strContainsSub k "var" then { st with vars := st.vars ++ [info] }
  else st

mutual
/-- Pre-order walk of `extractSymbols`: classify the node if it carries a
truthy kind and a truthy name, then always walk the children. -/
def walkA (file : String) : NodeA → SymbolTable → SymbolTable
  | NodeA.mk k n inh acc tn off len subs, st =>
    let st1 :=
      if jsTruthy k && jsTruthy n then
        classifyA file (k.getD "") (n.getD "") (inh.getD [])
          (acc.map (fun a => jsReplaceOnce a swiftAccessTag)) tn off len st
      else st
    walkAList file subs st1
/-- The `for (const child of substructure) walk(child)` loop. -/
def walkAList (file : String) : List NodeA → SymbolTable → SymbolTable
  | [], st => st
  | x :: xs, st => walkAList file xs (walkA file x st)
end

/-- The function `extractSymbols` of the source. -/
def extractSymbols (ast : NodeA) (filePath : String) : SymbolTable :=
  walkA filePath ast SymbolTable.empty

/-- Member classification of one direct child inside
`extractMemberData.findAndExtractMembers`: function/method children split
into initializers (name starts with `init`) and methods, `var` children
become properties. -/
def classifyMemberA (st : Members) (m : NodeA) : Members :=
  match m with
  | NodeA.mk k n _ acc tn _ _ _ =>
    let memberKind := k.getD ""
    let memberName := n.getD ""
    let access := acc.map (fun a => jsReplaceOnce a swiftAccessTag)
    if strContainsSub memberKind "function" || strContainsSub memberKind "method" then
      if jsStartsWith memberName "init" then
        { st with initializers := st.initializers ++ [⟨memberName, none, none, access⟩] }
      else
        { st with methods := st.methods ++ [⟨memberName, none, tn, access⟩] }
    else if strContainsSub memberKind "var" then
      { st with properties := st.properties ++ [⟨memberName, tn, none, access⟩] }
    else st

mutual
/-- The function `findAndExtractMembers`: first node (pre-order) with a
truthy kind, a truthy name and that exact name yields the classification
of its direct children; the search does not recurse past a match. -/
def findAndExtractMembers (symbolName : String) : NodeA → Option Members
  | NodeA.mk k n _ _ _ _ _ subs =>
    if jsTruthy k && jsTruthy n && decide (n = some symbolName) then
      some (subs.foldl classifyMemberA ⟨[], [], []⟩)
    else
      findMembersList symbolName subs
/-- Depth-first search over the children with early return. -/
def findMembersList (symbolName : String) : List NodeA → Option Members
  | [] => none
  | x :: xs =>
    match findAndExtractMembers symbolName x with
    | some r => some r
    | none => findMembersList symbolName xs
end

/-- The function `extractMemberData`: one targeted search per top-level
class/struct/protocol/enum symbol; results keyed by symbol name with
JS-object assignment semantics. -/
def extractMemberData (ast : NodeA) (symbols : SymbolTable) : List (String × Members) :=
  let allSymbols := symbols.classes ++ symbols.structs ++ symbols.protocols ++ symbols.enums
  allSymbols.foldl (fun md sym =>
    match findAndExtractMembers sym.name ast with
    | some members => alUpsert sym.name members md
    | none => md) []

/-- JS `s.endsWith(pat)`. -/
def jsEndsWith (s pat : String) : Bool := isPrefixB pat.data.reverse s.data.reverse

/-- Clang's JSON representation for a null pointer (`CLANG_NULL_POINTER`). -/
def CLANG_NULL_POINTER : String := "0x0"

/-- The `super` reference of a Clang `ObjCInterfaceDecl` node. -/
structure SuperRef where
  id : String
  name : Option String
deriving DecidableEq

/-- A Clang source range: `begin.offset` and `end.offset`, each possibly
missing. -/
structure RangeB where
  beginOffset : Option Int
  endOffset : Option Int
deriving DecidableEq

/-- The helper `calculateRangeLength`: `undefined` when either offset is
missing, otherwise `end.offset - begin.offset`. -/
def calculateRangeLength : Option RangeB → Option Int
  | none => none
  | some r =>
    match r.beginOffset, r.endOffset with
    | some b, some e => some (e - b)
    | _, _ => none

/-- Shape B (Clang JSON) raw AST node. `protocols` holds the `name` of
each entry of the protocol list; `interface` models `node.interface`
with its optional `name`; `locOffset` models `node.loc?.offset`;
`returnTypeQual` models `returnType?.qualType` and `typeQual` models
`type?.qualType` (both only read on member children); `inner` models
`node.inner || []`. -/
inductive NodeB : Type where
  | mk (kind : Option String) (name : Option String) (isImplicit : Bool)
       (superRef : Option SuperRef) (protocols : Option (List (Option String)))
       (interface : Option (Option String)) (locOffset : Option Int)
       (range : Option RangeB)
       (returnTypeQual : Option String) (typeQual : Option String)
       (inner : List NodeB)

/-- Protocol names collected by the `for (const protocol of node.protocols)`
loops: only truthy names are pushed, in order. -/
def objcProtocolNames (protos : Option (List (Option String))) : List String :=
  (protos.getD []).filterMap (fun p => if jsTruthy p then p else none)

/-- Inherited types of an `ObjCInterfaceDecl`: the superclass name when
`super` is present with a non-null id and a truthy name, then the
adopted protocol names. -/
def objcInterfaceInherited (sup : Option SuperRef)
    (protos : Option (List (Option String))) : List String :=
  let superPart : List String :=
    match sup with
    | some s =>
      if s.id ≠ CLANG_NULL_POINTER then
        match s.name with
        | some sn => if sn ≠ "" then [sn] else []
        | none => []
      else []
    | none => []
  superPart ++ objcProtocolNames protos

/-- File-extension based accessibility of the Objective-C extractor:
`public` for headers, `internal` otherwise. -/
def objcAccessibility (file : String) : String :=
  if jsEndsWith file ".h" then "public" else "internal"

/-- Member classification of one `inner` child of an `ObjCInterfaceDecl`:
a named `ObjCMethodDecl` is an initializer exactly when its name is
`init` or starts with `initWith`, otherwise a method; a named
`ObjCPropertyDecl` is a property. -/
def objcClassMember (accz : Option String) (ms : Members) (child : NodeB) : Members :=
  match child with
  | NodeB.mk ck cn _ _ _ _ _ _ rtq tq _ =>
    if decide (ck = some "ObjCMethodDecl") && jsTruthy cn then
      let methodInfo : Member := ⟨cn.getD "", none, rtq, accz⟩
      if decide (cn.getD "" = "init") || jsStartsWith (cn.getD "") "initWith" then
        { ms with initializers := ms.initializers ++ [methodInfo] }
      else
        { ms with methods := ms.methods ++ [methodInfo] }
    else if decide (ck = some "ObjCPropertyDecl") && jsTruthy cn then
      { ms with properties := ms.properties ++ [⟨cn.getD "", tq, none, accz⟩] }
    else ms

/-- Member classification of one `inner` child of an `ObjCProtocolDecl`:
every named `ObjCMethodDecl` is a method (never an initializer); a named
`ObjCPropertyDecl` is a property. -/
def objcProtocolMember (accz : Option String) (ms : Members) (child : NodeB) : Members :=
  match child with
  | NodeB.mk ck cn _ _ _ _ _ _ rtq tq _ =>
    if decide (ck = some "ObjCMethodDecl") && jsTruthy cn then
      { ms with methods := ms.methods ++ [⟨cn.getD "", none, rtq, accz⟩] }
    else if decide (ck = some "ObjCPropertyDecl") && jsTruthy cn then
      { ms with properties := ms.properties ++ [⟨cn.getD "", tq, none, accz⟩] }
    else ms

/-- The `ObjCInterfaceDecl` branch of the Objective-C walk: pushes the
class symbol and records its member data under the class name. -/
def objcStepInterface (file : String) (kind name : Option String) (isImpl : Bool)
    (sup : Option SuperRef) (protos : Option (List (Option String)))
    (locOff : Option Int) (range : Option RangeB) (inner : List NodeB)
    (s : SymbolTable × List (String × Members)) :
    SymbolTable × List (String × Members) :=
  if decide (kind = some "ObjCInterfaceDecl") && jsTruthy name && !isImpl then
    let nm := name.getD ""
    let accz := objcAccessibility file
    let info : SymbolInfo :=
      ⟨nm, "source.lang.objc.decl.class", file, objcInterfaceInherited sup protos,
        some accz, none, locOff, calculateRangeLength range, none⟩
    let members := inner.foldl (objcClassMember (some accz)) ⟨[], [], []⟩
    ({ s.1 with classes := s.1.classes ++ [info] }, alUpsert nm members s.2)
  else s

/-- The `ObjCProtocolDecl` branch of the Objective-C walk. -/
def objcStepProtocol (file : String) (kind name : Option String) (isImpl : Bool)
    (protos : Option (List (Option String))) (locOff : Option Int)
    (range : Option RangeB) (inner : List NodeB)
    (s : SymbolTable × List (String × Members)) :
    SymbolTable × List (String × Members) :=
  if decide (kind = some "ObjCProtocolDecl") && jsTruthy name && !isImpl then
    let nm := name.getD ""
    let accz := objcAccessibility file
    let info : SymbolInfo :=
      ⟨nm, "source.lang.objc.decl.protocol", file, objcProtocolNames protos,
        some accz, none, locOff, calculateRangeLength range, none⟩
    let members := inner.foldl (objcProtocolMember (some accz)) ⟨[], [], []⟩
    ({ s.1 with protocols := s.1.protocols ++ [info] }, alUpsert nm members s.2)
  else s

/-- The well-formed `ObjCCategoryDecl` branch of the Objective-C walk:
the category is recorded in the extensions bucket under the compound name
`interfaceName(categoryName)`, with `extendedType` set to the interface
name. -/
def objcStepCategory (file : String) (kind name : Option String) (isImpl : Bool)
    (protos : Option (List (Option String))) (iface : Option (Option String))
    (locOff : Option Int) (range : Option RangeB)
    (s : SymbolTable × List (String × Members)) :
    SymbolTable × List (String × Members) :=
  if decide (kind = some "ObjCCategoryDecl") && jsTruthy name && !isImpl then
    let interfaceName := iface.join.getD ""
    let categoryName := interfaceName ++ "(" ++ name.getD "" ++ ")"
    let info : SymbolInfo :=
      ⟨categoryName, "source.lang.objc.decl.extension", file,
        objcProtocolNames protos, some (objcAccessibility file), none,
        locOff, calculateRangeLength range, some interfaceName⟩
    ({ s.1 with extensions := s.1.extensions ++ [info] }, s.2)
  else s

mutual
/-- Walk of `extractObjCSymbols`: handles `ObjCInterfaceDecl`,
`ObjCProtocolDecl` and `ObjCCategoryDecl` nodes, then recurses into
`inner` — except for a malformed category (no resolvable interface name),
which returns early without walking its children. -/
def walkB (file : String) : NodeB → SymbolTable × List (String × Members) →
    SymbolTable × List (String × Members)
  | NodeB.mk kind name isImpl sup protos iface locOff range _ _ inner, s =>
    let s1 := objcStepInterface file kind name isImpl sup protos locOff range inner s
    let s2 := objcStepProtocol file kind name isImpl protos locOff range inner s1
    if decide (kind = some "ObjCCategoryDecl") && jsTruthy name && !isImpl &&
        !jsTruthy iface.join then
      s2
    else
      walkBList file inner
        (objcStepCategory file kind name isImpl protos iface locOff range s2)
/-- The `for (const child of node.inner) walk(child)` loop. -/
def walkBList (file : String) : List NodeB → SymbolTable × List (String × Members) →
    SymbolTable × List (String × Members)
  | [], s => s
  | x :: xs, s => walkBList file xs (walkB file x s)
end

/-- The function `extractObjCSymbols` of the source, returning the symbol
table and the member data. -/
def extractObjCSymbols (ast : NodeB) (filePath : String) :
    SymbolTable × List (String × Members) :=
  walkB filePath ast (SymbolTable.empty, [])

/-- Per-file value stored in `files` by `init_swift_repo`. -/
structure FileData where
  symbols : SymbolTable
  memberData : List (String × Members)
  language : String
deriving DecidableEq

/-- A type-map entry: defining unit (relative), kind tag and the full
symbol record. -/
structure TypeMapEntry where
  file : String
  kind : String
  symbol : SymbolInfo
deriving DecidableEq

/-- A dependency edge of the graph. -/
structure Edge where
  from_ : String
  to_ : String
  fromSymbol : String
  toSymbol : String
deriving DecidableEq

/-- One entry of the `byName` index. -/
structure ByNameEntry where
  file : String
  kind : String
deriving DecidableEq

/-- The three lookup indexes. -/
structure Indexes where
  byName : List (String × List ByNameEntry)
  byKind : List (String × List String)
  byFile : List (String × List String)
deriving DecidableEq

/-- Type-map contribution of one unit: classes, structs, protocols and
enums inserted in that order with assignment (last-write-wins) semantics. -/
def typeMapAddFile (repo : String) (tm : List (String × TypeMapEntry))
    (p : String × FileData) : List (String × TypeMapEntry) :=
  let rel := getRelativePath repo p.1
  let tm := p.2.symbols.classes.foldl (fun tm c => alUpsert c.name ⟨rel, "class", c⟩ tm) tm
  let tm := p.2.symbols.structs.foldl (fun tm s => alUpsert s.name ⟨rel, "struct", s⟩ tm) tm
  let tm := p.2.symbols.protocols.foldl (fun tm q => alUpsert q.name ⟨rel, "protocol", q⟩ tm) tm
  p.2.symbols.enums.foldl (fun tm e => alUpsert e.name ⟨rel, "enum", e⟩ tm) tm

/-- The type-map build loop of `init_swift_repo`. -/
def buildTypeMap (repo : String) (files : List (String × FileData)) :
    List (String × TypeMapEntry) :=
  files.foldl (typeMapAddFile repo) []

/-- Edge contribution of one symbol: one edge per inherited-type name that
resolves in the type map; unresolvable names are silently dropped. -/
def edgesAddSymbol (tm : List (String × TypeMapEntry)) (rel : String)
    (es : List Edge) (sym : SymbolInfo) : List Edge :=
  sym.inheritedTypes.foldl (fun es inh =>
    match alGet inh tm with
    | some entry => es ++ [⟨rel, entry.file, sym.name, inh⟩]
    | none => es) es

/-- Edge contribution of one unit: classes, structs, enums and extensions
are scanned, in that order. -/
def edgesAddFile (repo : String) (tm : List (String × TypeMapEntry))
    (es : List Edge) (p : String × FileData) : List Edge :=
  let rel := getRelativePath repo p.1
  let allTypes := p.2.symbols.classes ++ p.2.symbols.structs ++
    p.2.symbols.enums ++ p.2.symbols.extensions
  allTypes.foldl (edgesAddSymbol tm rel) es

/-- The edge build loop of `init_swift_repo`. -/
def buildEdges (repo : String) (files : List (String × FileData))
    (tm : List (String × TypeMapEntry)) : List Edge :=
  files.foldl (edgesAddFile repo tm) []

/-- The inner `processSymbols` closure of the index build: ensures the
`byKind` entry, then appends each symbol occurrence to all three indexes. -/
def processSymbols (rel : String) (idx : Indexes)
    (symbols : List SymbolInfo) (kind : String) : Indexes :=
  let idx0 : Indexes := { idx with byKind := alEnsure kind idx.byKind }
  symbols.foldl (fun idx s =>
    { byName := alPush s.name ⟨rel, kind⟩ idx.byName
      byKind := alPush kind s.name idx.byKind
      byFile := alPush rel s.name idx.byFile }) idx0

/-- Index contribution of one unit: `byFile[rel]` is (re)set to the empty
list, then the five indexed bucket families are processed in order;
extensions and variables are not indexed. -/
def indexesAddFile (repo : String) (idx : Indexes) (p : String × FileData) : Indexes :=
  let rel := getRelativePath repo p.1
  let idx := { idx with byFile := alUpsert rel [] idx.byFile }
  let idx := processSymbols rel idx p.2.symbols.classes "class"
  let idx := processSymbols rel idx p.2.symbols.structs "struct"
  let idx := processSymbols rel idx p.2.symbols.protocols "protocol"
  let idx := processSymbols rel idx p.2.symbols.enums "enum"
  processSymbols rel idx p.2.symbols.functions "function"

/-- The index build loop of `init_swift_repo`. -/
def buildIndexes (repo : String) (files : List (String × FileData)) : Indexes :=
  files.foldl (indexesAddFile repo) ⟨[], [], []⟩

/-- The assembled `astData` value. -/
structure Graph where
  repoPath : String
  files : List (String × FileData)
  typeMap : List (String × TypeMapEntry)
  edges : List Edge
  indexes : Indexes
deriving DecidableEq

/-- Graph assembly of `init_swift_repo` from the processed files. -/
def buildGraph (repo : String) (files : List (String × FileData)) : Graph :=
  let tm := buildTypeMap repo files
  ⟨repo, files, tm, buildEdges repo files tm, buildIndexes repo files⟩

/-- The `kindToPlural` constant map of the source. -/
def kindToPlural (k : String) : Option String :=
  if k = "class" then some "classes"
  else if k = "struct" then some "structs"
  else if k = "protocol" then some "protocols"
  else if k = "enum" then some "enums"
  else if k = "function" then some "functions"
  else none

/-- The expression `kindToPlural[match.kind] || match.kind + "s"`. -/
def pluralOf (k : String) : String := (kindToPlural k).getD (k ++ "s")

/-- Property access `fileData.symbols?.[pluralKind]`: the seven bucket
keys of the symbols object, `undefined` for anything else. -/
def symbolsBucket (st : SymbolTable) (plural : String) : Option (List SymbolInfo) :=
  if plural = "classes" then some st.classes
  else if plural = "structs" then some st.structs
  else if plural = "protocols" then some st.protocols
  else if plural = "functions" then some st.functions
  else if plural = "enums" then some st.enums
  else if plural = "extensions" then some st.extensions
  else if plural = "variables" then some st.vars
  else none

/-- The merged record `\x7b ...symbol, file: match.file, symbolKind: match.kind \x7d`
returned by `findSymbol`: the symbol with its `file` overwritten, plus
the kind tag. -/
structure FoundSymbol where
  symbol : SymbolInfo
  symbolKind : String
deriving DecidableEq

/-- The index path of `findSymbol`: first `byName` location, unit lookup
through `path.join`, pluralized bucket, exact-name find. Any miss along
the way yields `none`. -/
def findSymbolViaIndex (g : Graph) (symbolName : String) : Option FoundSymbol :=
  match alGet symbolName g.indexes.byName with
  | some (m :: _) =>
    let fullPath := jsPathJoin g.repoPath m.file
    match alGet fullPath g.files with
    | some fileData =>
      match symbolsBucket fileData.symbols (pluralOf m.kind) with
      | some symbolList =>
        match symbolList.find? (fun s => decide (s.name = symbolName)) with
        | some sym => some ⟨{ sym with file := m.file }, m.kind⟩
        | none => none
      | none => none
    | none => none
  | _ => none

/-- The function `findSymbol` of the source: index path first, direct
type-map lookup as fallback, `none` when both miss. -/
def findSymbol (g : Graph) (symbolName : String) : Option FoundSymbol :=
  match findSymbolViaIndex g symbolName with
  | some r => some r
  | none =>
    match alGet symbolName g.typeMap with
    | some ti => some ⟨{ ti.symbol with file := ti.file }, ti.kind⟩
    | none => none

/-- The `inheritedBy` computation of `explain_symbol`: edges whose
`toSymbol` equals the queried name, as `(fromSymbol, from)` pairs. -/
def inheritedByOf (g : Graph) (symbolName : String) : List (String × String) :=
  (g.edges.filter (fun e => decide (e.toSymbol = symbolName))).map
    (fun e => (e.fromSymbol, e.from_))

/-- The `filesWithSymbol` set of `explain_symbol`: `byName` locations of
the queried name in units other than the defining one. Modelled as a
list; the code only consults membership. -/
def filesWithSymbol (g : Graph) (symbolName symFile : String) : List String :=
  ((alGet symbolName g.indexes.byName).getD []).filterMap
    (fun loc => if loc.file ≠ symFile then some loc.file else none)

/-- Extension contribution of one unit to `extendedIn`: skipped for the
defining unit; otherwise every extension whose own name equals the
queried name, as `(file, conformances)`. -/
def extensionsOfFile (repo symbolName symFile : String)
    (acc : List (String × List String)) (p : String × FileData) :
    List (String × List String) :=
  let rel := getRelativePath repo p.1
  if rel = symFile then acc
  else acc ++ (p.2.symbols.extensions.filter
    (fun ext => decide (ext.name = symbolName))).map
    (fun ext => (rel, ext.inheritedTypes))

/-- The `extendedIn` computation of `explain_symbol`. -/
def extensionsOf (g : Graph) (symbolName symFile : String) :
    List (String × List String) :=
  g.files.foldl (extensionsOfFile g.repoPath symbolName symFile) []

/-- The bucket lists of the symbols object in `Object.values` order. -/
def allBuckets (st : SymbolTable) : List (List SymbolInfo) :=
  [st.classes, st.structs, st.protocols, st.functions, st.enums,
    st.extensions, st.vars]

/-- The `usesSymbol` test of `explain_symbol`: the unit is recorded in
`filesWithSymbol`, or some symbol of any bucket has the queried name as
its `typeName` or among its `inheritedTypes`. -/
def usesSymbolIn (fws : List String) (rel symbolName : String)
    (st : SymbolTable) : Bool :=
  decide (rel ∈ fws) ||
    (allBuckets st).any (fun bl => bl.any (fun s =>
      decide (s.typeName = some symbolName) ||
        decide (symbolName ∈ s.inheritedTypes)))

/-- Reference contribution of one unit to `referencedIn`: the defining
unit is skipped, any other unit is appended when `usesSymbol` holds. -/
def referencedInFile (repo symbolName symFile : String) (fws : List String)
    (acc : List String) (p : String × FileData) : List String :=
  let rel := getRelativePath repo p.1
  if rel = symFile then acc
  else if usesSymbolIn fws rel symbolName p.2.symbols then acc ++ [rel]
  else acc

/-- The `referencedIn` computation of `explain_symbol`. -/
def referencedInOf (g : Graph) (symbolName symFile : String) : List String :=
  g.files.foldl
    (referencedInFile g.repoPath symbolName symFile
      (filesWithSymbol g symbolName symFile)) []

/-- One result row of `search_symbols`. -/
structure SearchResult where
  name : String
  kind : String
  file : String
  inherited : List String
deriving DecidableEq

/-- The `add` closure of `search_symbols`: appends every symbol of the
bucket whose lowercased name contains the lowercased query. -/
def searchAddBucket (rel q kind : String) (results : List SearchResult)
    (symbols : List SymbolInfo) : List SearchResult :=
  symbols.foldl (fun results s =>
    if strContainsSub (jsToLower s.name) q then
      results ++ [⟨s.name, kind, rel, s.inheritedTypes⟩]
    else results) results

/-- Search contribution of one unit: the five searchable buckets gated by
the kind filter, in the fixed order class, struct, protocol, function,
enum. -/
def searchAddFile (repo q ty : String) (results : List SearchResult)
    (p : String × FileData) : List SearchResult :=
  let rel := getRelativePath repo p.1
  let results := if decide (ty = "all") || decide (ty = "class") then
    searchAddBucket rel q "class" results p.2.symbols.classes else results
  let results := if decide (ty = "all") || decide (ty = "struct") then
    searchAddBucket rel q "struct" results p.2.symbols.structs else results
  let results := if decide (ty = "all") || decide (ty = "protocol") then
    searchAddBucket rel q "protocol" results p.2.symbols.protocols else results
  let results := if decide (ty = "all") || decide (ty = "function") then
    searchAddBucket rel q "function" results p.2.symbols.functions else results
  if decide (ty = "all") || decide (ty = "enum") then
    searchAddBucket rel q "enum" results p.2.symbols.enums else results

/-- The result collection of `search_symbols` (before display truncation,
which is presentation only). -/
def searchSymbols (g : Graph) (query ty : String) : List SearchResult :=
  g.files.foldl (searchAddFile g.repoPath (jsToLower query) ty) []

/-! Fixtures: small concrete inputs used by the scenario parts of the
claims below. -/

/-- A Shape A class node. -/
def mkClassA (n : String) (inh : List String) (subs : List NodeA) : NodeA :=
  NodeA.mk (some "source.lang.swift.decl.class") (some n) (some inh) none none none none subs

/-- A Shape A top-level container node (SourceKitten file roots carry no
kind or name). -/
def rootA (subs : List NodeA) : NodeA :=
  NodeA.mk none none none none none none none subs

/-- A Shape A node with only a kind and a name tag. -/
def leafA (k n : Option String) : NodeA := NodeA.mk k n none none none none none []

/-- Fixture for the edge claims: one unit declaring `Base` and `Kid`,
where `Kid` inherits the resolvable `Base` and the unresolvable
`Missing`. -/
def astC1 : NodeA := rootA [mkClassA "Base" [] [], mkClassA "Kid" ["Base", "Missing"] []]

/-- File data of the edge fixture. -/
def fdC1 : FileData :=
  ⟨extractSymbols astC1 "/r/A.swift",
   extractMemberData astC1 (extractSymbols astC1 "/r/A.swift"), "swift"⟩

/-- Graph of the edge fixture. -/
def gC1 : Graph := buildGraph "/r" [("/r/A.swift", fdC1)]

/-- The kind selector of the duplicate-name claim: which type bucket a
unit declares its symbol in. -/
inductive TypeKind : Type where
  | cls
  | strct
  | prot
  | enm
deriving DecidableEq

/-- The kind tag the type-map build records for each bucket. -/
def typeKindStr : TypeKind → String
  | TypeKind.cls => "class"
  | TypeKind.strct => "struct"
  | TypeKind.prot => "protocol"
  | TypeKind.enm => "enum"

/-- A symbol table declaring exactly one symbol, in the selected type
bucket. -/
def oneTypeTable : TypeKind → SymbolInfo → SymbolTable
  | TypeKind.cls, s => ⟨[s], [], [], [], [], [], []⟩
  | TypeKind.strct, s => ⟨[], [s], [], [], [], [], []⟩
  | TypeKind.prot, s => ⟨[], [], [s], [], [], [], []⟩
  | TypeKind.enm, s => ⟨[], [], [], [], [s], [], []⟩

/-- Shape A extension fixture, unit A: `class Foo`. -/
def fdC4A1 : FileData :=
  ⟨extractSymbols (rootA [mkClassA "Foo" [] []]) "/r/A.swift", [], "swift"⟩

/-- Shape A extension fixture, unit B: `extension Foo: Bar`. -/
def fdC4A2 : FileData :=
  ⟨extractSymbols (rootA [NodeA.mk (some "source.lang.swift.decl.extension")
    (some "Foo") (some ["Bar"]) none none none none []]) "/r/B.swift", [], "swift"⟩

/-- Graph of the Shape A extension fixture. -/
def gC4A : Graph := buildGraph "/r" [("/r/A.swift", fdC4A1), ("/r/B.swift", fdC4A2)]

/-- Shape B fixture, unit A: `@interface Foo` in a header. -/
def astC4B1 : NodeB :=
  NodeB.mk (some "ObjCInterfaceDecl") (some "Foo") false none none none none none none none []

/-- Shape B fixture, unit B: `@interface Foo (Additions) <Bar>`. -/
def astC4B2 : NodeB :=
  NodeB.mk (some "ObjCCategoryDecl") (some "Additions") false none
    (some [some "Bar"]) (some (some "Foo")) none none none none []

/-- File data of the Shape B fixture, unit A. -/
def fdC4B1 : FileData :=
  ⟨(extractObjCSymbols astC4B1 "/r/A.h").1, (extractObjCSymbols astC4B1 "/r/A.h").2, "objc"⟩

/-- File data of the Shape B fixture, unit B. -/
def fdC4B2 : FileData :=
  ⟨(extractObjCSymbols astC4B2 "/r/B.m").1, (extractObjCSymbols astC4B2 "/r/B.m").2, "objc"⟩

/-- Graph of the Shape B category fixture. -/
def gC4B : Graph := buildGraph "/r" [("/r/A.h", fdC4B1), ("/r/B.m", fdC4B2)]

/-- Fixture for the byFile claim: a unit declaring only an extension. -/
def fdC5 : FileData :=
  ⟨extractSymbols (rootA [NodeA.mk (some "source.lang.swift.decl.extension")
    (some "Foo") none none none none none []]) "/r/E.swift", [], "swift"⟩

/-- Graph of the byFile fixture. -/
def gC5 : Graph := buildGraph "/r" [("/r/E.swift", fdC5)]

/-- The names the index build records for a unit, in indexing order: the
five indexed bucket families, extensions and variables excluded. -/
def indexedNames (st : SymbolTable) : List String :=
  (st.classes ++ st.structs ++ st.protocols ++ st.enums ++ st.functions).map
    (fun s => s.name)

/-- All symbols of a unit in `Object.values` bucket order, flattened. -/
def allSymbolsList (st : SymbolTable) : List SymbolInfo :=
  st.classes ++ st.structs ++ st.protocols ++ st.functions ++ st.enums ++
    st.extensions ++ st.vars

/-- The unfiltered search enumeration: every searchable symbol in unit
order, buckets in the fixed order class, struct, protocol, function,
enum, declaration order inside each bucket, gated by the kind filter.
`searchSymbols` is shown to be exactly the substring filter of this
enumeration. -/
def searchEnumFile (repo ty : String) (results : List SearchResult)
    (p : String × FileData) : List SearchResult :=
  let rel := getRelativePath repo p.1
  let mk := fun (kind : String) (s : SymbolInfo) =>
    (⟨s.name, kind, rel, s.inheritedTypes⟩ : SearchResult)
  let results := if decide (ty = "all") || decide (ty = "class") then
    results ++ p.2.symbols.classes.map (mk "class") else results
  let results := if decide (ty = "all") || decide (ty = "struct") then
    results ++ p.2.symbols.structs.map (mk "struct") else results
  let results := if decide (ty = "all") || decide (ty = "protocol") then
    results ++ p.2.symbols.protocols.map (mk "protocol") else results
  let results := if decide (ty = "all") || decide (ty = "function") then
    results ++ p.2.symbols.functions.map (mk "function") else results
  if decide (ty = "all") || decide (ty = "enum") then
    results ++ p.2.symbols.enums.map (mk "enum") else results

/-- The full search enumeration over the graph. -/
def searchEnumeration (g : Graph) (ty : String) : List SearchResult :=
  g.files.foldl (searchEnumFile g.repoPath ty) []

/-- Search fixture: classes `UserManager` and `UserViewModel` and a free
function `userHelper()` in one unit. -/
def fdC8 : FileData :=
  ⟨extractSymbols (rootA [mkClassA "UserManager" [] [], mkClassA "UserViewModel" [] [],
    NodeA.mk (some "source.lang.swift.decl.function.free") (some "userHelper()")
      none none none none none []]) "/r/U.swift", [], "swift"⟩

/-- Graph of the search fixture. -/
def gC8 : Graph := buildGraph "/r" [("/r/U.swift", fdC8)]

/-- A Shape A function/method member child. -/
def funChildA (m : String) : NodeA :=
  NodeA.mk (some "source.lang.swift.decl.function.method.instance") (some m)
    none none none none none []

/-- Shape A member fixture: a class `C` with one method-kind direct child
named `m`. -/
def fixA9 (m : String) : NodeA :=
  rootA [NodeA.mk (some "source.lang.swift.decl.class") (some "C") (some [])
    none none none none [funChildA m]]

/-- The symbol table listing the class `C` of the member fixture. -/
def tableC9 : SymbolTable :=
  ⟨[⟨"C", "source.lang.swift.decl.class", "f", [], none, none, none, none, none⟩],
    [], [], [], [], [], []⟩

/-- Member data extracted from the Shape A member fixture. -/
def md9A (m : String) : List (String × Members) := extractMemberData (fixA9 m) tableC9

/-- A Shape B method member child. -/
def methodChildB (m : String) : NodeB :=
  NodeB.mk (some "ObjCMethodDecl") (some m) false none none none none none none none []

/-- Shape B member fixture: an interface `C` with one method child named
`m`, in a header. -/
def fixB9 (m : String) : NodeB :=
  NodeB.mk (some "ObjCInterfaceDecl") (some "C") false none none none none none none none
    [methodChildB m]

/-- Member data extracted from the Shape B class member fixture. -/
def md9B (m : String) : List (String × Members) := (extractObjCSymbols (fixB9 m) "/r/B.h").2

/-- Shape B protocol member fixture: a protocol `P` with one method child
named `m`. -/
def fixP9 (m : String) : NodeB :=
  NodeB.mk (some "ObjCProtocolDecl") (some "P") false none none none none none none none
    [methodChildB m]

/-- Member data extracted from the Shape B protocol member fixture. -/
def md9P (m : String) : List (String × Members) := (extractObjCSymbols (fixP9 m) "/r/B.h").2

/-- Non-emptiness of every bucket name of a symbol table, bucket by
bucket. -/
def nonEmptyNames (st : SymbolTable) : Prop :=
  (∀ s ∈ st.classes, s.name ≠ "") ∧ (∀ s ∈ st.structs, s.name ≠ "") ∧
  (∀ s ∈ st.protocols, s.name ≠ "") ∧ (∀ s ∈ st.functions, s.name ≠ "") ∧
  (∀ s ∈ st.enums, s.name ≠ "") ∧ (∀ s ∈ st.extensions, s.name ≠ "") ∧
  (∀ s ∈ st.vars, s.name ≠ "")

/-- A Shape B node with only a kind and a name tag. -/
def leafB (k n : Option String) : NodeB :=
  NodeB.mk k n false none none none none none none none []

/-- An edge whose target resolves in the given type map, landing in that
entry's file. -/
def edgeResolved (tm : List (String × TypeMapEntry)) (e : Edge) : Prop :=
  ∃ entry, alGet e.toSymbol tm = some entry ∧ e.to_ = entry.file

/-- The search predicate: the lowercased name contains the (already
lowercased) query. -/
def searchPred (q : String) (r : SearchResult) : Bool :=
  strContainsSub (jsToLower r.name) q

/-! Generic lemmas about the association-list operations and folds. -/

theorem foldl_mem_inv {α β : Type} (P : α → Prop) (f : List α → β → List α)
    (xs : List β)
    (hf : ∀ acc, ∀ b ∈ xs, (∀ e ∈ acc, P e) → ∀ e ∈ f acc b, P e) :
    ∀ acc, (∀ e ∈ acc, P e) → ∀ e ∈ xs.foldl f acc, P e := by
  induction xs with
  | nil => intro acc h e he; exact h e he
  | cons x xs ih =>
    intro acc h e he
    exact ih (fun acc b hb => hf acc b (List.mem_cons_of_mem x hb))
      (f acc x) (hf acc x (List.mem_cons_self x xs) h) e he

theorem alGet_alUpsert_self {α : Type} (k : String) (v : α) (m : List (String × α)) :
    alGet k (alUpsert k v m) = some v := by
  induction m with
  | nil => simp [alGet, alUpsert]
  | cons p rest ih =>
    by_cases h : p.1 = k
    · simp [alGet, alUpsert, h]
    · simp [alGet, alUpsert, h, ih]

theorem alGet_alUpsert_ne {α : Type} {k k' : String} (h : k' ≠ k) (v : α)
    (m : List (String × α)) : alGet k' (alUpsert k v m) = alGet k' m := by
  have h2 : ¬ (k = k') := fun hh => h hh.symm
  induction m with
  | nil => simp [alGet, alUpsert, h, h2]
  | cons p rest ih =>
    by_cases hp : p.1 = k
    · subst hp
      simp [alGet, alUpsert, h, h2]
    · by_cases hp' : p.1 = k'
      · simp [alGet, alUpsert, hp, hp', h, h2]
      · simp [alGet, alUpsert, hp, hp', ih]

theorem alGet_alPush_self {α : Type} (k : String) (v : α) (m : List (String × List α)) :
    alGet k (alPush k v m) = some ((alGet k m).getD [] ++ [v]) := by
  induction m with
  | nil => simp [alGet, alPush]
  | cons p rest ih =>
    by_cases h : p.1 = k
    · simp [alGet, alPush, h]
    · simp [alGet, alPush, h, ih]

theorem alGet_alPush_ne {α : Type} {k k' : String} (h : k' ≠ k) (v : α)
    (m : List (String × List α)) : alGet k' (alPush k v m) = alGet k' m := by
  have h2 : ¬ (k = k') := fun hh => h hh.symm
  induction m with
  | nil => simp [alGet, alPush, h, h2]
  | cons p rest ih =>
    by_cases hp : p.1 = k
    · subst hp
      simp [alGet, alPush, h, h2]
    · by_cases hp' : p.1 = k'
      · simp [alGet, alPush, hp, hp', h, h2]
      · simp [alGet, alPush, hp, hp', ih]

/-! Claim C1: edges are never dangling. -/

theorem edgesAddSymbol_resolved (tm : List (String × TypeMapEntry)) (rel : String)
    (sym : SymbolInfo) (acc : List Edge) (h : ∀ e ∈ acc, edgeResolved tm e) :
    ∀ e ∈ edgesAddSymbol tm rel acc sym, edgeResolved tm e := by
  refine foldl_mem_inv (edgeResolved tm) _ sym.inheritedTypes ?_ acc h
  intro acc' inh _ hacc e he
  cases hg : alGet inh tm with
  | none =>
    rw [hg] at he
    exact hacc e he
  | some entry =>
    rw [hg] at he
    rcases List.mem_append.mp he with hl | hr
    · exact hacc e hl
    · rcases List.mem_singleton.mp hr with rfl
      exact ⟨entry, hg, rfl⟩

theorem edgesAddFile_resolved (repo : String) (tm : List (String × TypeMapEntry))
    (p : String × FileData) (acc : List Edge) (h : ∀ e ∈ acc, edgeResolved tm e) :
    ∀ e ∈ edgesAddFile repo tm acc p, edgeResolved tm e := by
  refine foldl_mem_inv (edgeResolved tm) _ _ ?_ acc h
  intro acc' sym _ hacc
  exact edgesAddSymbol_resolved tm _ sym acc' hacc

theorem buildEdges_resolved (repo : String) (files : List (String × FileData))
    (tm : List (String × TypeMapEntry)) :
    ∀ e ∈ buildEdges repo files tm, edgeResolved tm e := by
  refine foldl_mem_inv (edgeResolved tm) _ files ?_ [] (by simp) 
  intro acc p _ hacc
  exact edgesAddFile_resolved repo tm p acc hacc

/-- C1: every edge of a constructed graph resolves: `typeMap[e.toSymbol]`
exists and `e.to` is that entry's file; and on the fixture with one class
inheriting one resolvable type (`Base`) and one unresolvable type
(`Missing`), exactly one edge is emitted. -/
theorem edges_never_dangling :
    (∀ (repo : String) (files : List (String × FileData)),
      ∀ e ∈ (buildGraph repo files).edges,
        ∃ entry, alGet e.toSymbol (buildGraph repo files).typeMap = some entry ∧
          e.to_ = entry.file) ∧
    gC1.edges = [⟨"A.swift", "A.swift", "Kid", "Base"⟩] := by
  constructor
  · intro repo files e he
    exact buildEdges_resolved repo files (buildTypeMap repo files) e he
  · rfl

/-- Witness for C1: the single fixture edge, with its hypotheses
discharged concretely. -/
theorem edges_never_dangling_witness :
    ∃ entry, alGet "Base" (buildGraph "/r" [("/r/A.swift", fdC1)]).typeMap = some entry ∧
      "A.swift" = entry.file :=
  edges_never_dangling.1 "/r" [("/r/A.swift", fdC1)]
    ⟨"A.swift", "A.swift", "Kid", "Base"⟩ (by decide)

/-! Claim C3: symbol resolution algorithm and its not-found behaviour. -/

/-- C3: `findSymbol` first consults `byName[name]` and, when the first
recorded location leads through the unit's pluralized-kind bucket to an
exact-name match, returns that symbol merged with the location; when the
index path misses it falls back to a direct `typeMap[name]` lookup; it
returns not-found exactly when both paths miss, and in particular
`NoSuchType` resolves to not-found on the fixture graph. -/
theorem findSymbol_resolution :
    (∀ (g : Graph) (n : String),
        findSymbol g n = none ↔
          findSymbolViaIndex g n = none ∧ alGet n g.typeMap = none) ∧
    (∀ (g : Graph) (n : String) (m : ByNameEntry) (rest : List ByNameEntry)
        (fd : FileData) (lst : List SymbolInfo) (s : SymbolInfo),
        alGet n g.indexes.byName = some (m :: rest) →
        alGet (jsPathJoin g.repoPath m.file) g.files = some fd →
        symbolsBucket fd.symbols (pluralOf m.kind) = some lst →
        lst.find? (fun s' => decide (s'.name = n)) = some s →
        findSymbol g n = some ⟨{ s with file := m.file }, m.kind⟩) ∧
    (∀ (g : Graph) (n : String) (ti : TypeMapEntry),
        findSymbolViaIndex g n = none → alGet n g.typeMap = some ti →
        findSymbol g n = some ⟨{ ti.symbol with file := ti.file }, ti.kind⟩) ∧
    findSymbol gC1 "NoSuchType" = none := by
  refine ⟨?_, ?_, ?_, ?_⟩
  · intro g n
    cases h1 : findSymbolViaIndex g n <;> cases h2 : alGet n g.typeMap <;>
      simp [findSymbol, h1, h2]
  · intro g n m rest fd lst s h1 h2 h3 h4
    simp [findSymbol, findSymbolViaIndex, h1, h2, h3, h4]
  · intro g n ti h1 h2
    simp [findSymbol, h1, h2]
  · rfl

/-- Witness for C3: resolving `Kid` on the fixture graph through the
index path. -/
theorem findSymbol_resolution_witness :
    findSymbol gC1 "Kid" =
      some ⟨⟨"Kid", "source.lang.swift.decl.class", "A.swift", ["Base", "Missing"],
        none, none, none, none, none⟩, "class"⟩ :=
  findSymbol_resolution.2.1 gC1 "Kid" ⟨"A.swift", "class"⟩ [] fdC1
    fdC1.symbols.classes
    ⟨"Kid", "source.lang.swift.decl.class", "/r/A.swift", ["Base", "Missing"],
      none, none, none, none, none⟩
    (by decide) (by decide) (by decide) (by decide)

/-! Claim C9: initializer/method split differs by dialect. -/

theorem md9B_reduction (m : String) :
    md9B m = [("C",
      if jsTruthy (some m) then
        (if decide (m = "init") || jsStartsWith m "initWith"
          then (⟨[], [], [⟨m, none, none, some "public"⟩]⟩ : Members)
          else ⟨[], [⟨m, none, none, some "public"⟩], []⟩)
      else ⟨[], [], []⟩)] := rfl

theorem md9P_reduction (m : String) :
    md9P m = [("P",
      if jsTruthy (some m) then (⟨[], [⟨m, none, none, some "public"⟩], []⟩ : Members)
      else ⟨[], [], []⟩)] := rfl

/-- C9: in Shape A a function/method direct child becomes an initializer
exactly when its name starts with `init`; in Shape B a class method child
becomes an initializer exactly when its name is `init` or starts with
`initWith`, and a protocol method child is always a plain method. -/
theorem initializer_split_by_dialect :
    (∀ m : String,
      alGet "C" (md9A m) =
        some (if jsStartsWith m "init"
          then ⟨[], [], [⟨m, none, none, none⟩]⟩
          else ⟨[], [⟨m, none, none, none⟩], []⟩)) ∧
    (∀ m : String, m ≠ "" →
      alGet "C" (md9B m) =
        some (if decide (m = "init") || jsStartsWith m "initWith"
          then ⟨[], [], [⟨m, none, none, some "public"⟩]⟩
          else ⟨[], [⟨m, none, none, some "public"⟩], []⟩)) ∧
    (∀ m : String, m ≠ "" →
      alGet "P" (md9P m) = some ⟨[], [⟨m, none, none, some "public"⟩], []⟩) := by
  refine ⟨?_, ?_, ?_⟩
  · intro m
    rfl
  · intro m h
    have ht : jsTruthy (some m) = true := by simp [jsTruthy, h]
    rw [md9B_reduction, ht]
    simp [alGet]
  · intro m h
    have ht : jsTruthy (some m) = true := by simp [jsTruthy, h]
    rw [md9P_reduction, ht]
    simp [alGet]

/-- Witness for C9: `initialize` is an initializer in Shape A but a plain
method in Shape B, and `init` stays a plain method on a Shape B protocol. -/
theorem initializer_split_by_dialect_witness :
    alGet "C" (md9A "initialize") =
      some ⟨[], [], [⟨"initialize", none, none, none⟩]⟩ ∧
    alGet "C" (md9B "initialize") =
      some ⟨[], [⟨"initialize", none, none, some "public"⟩], []⟩ ∧
    alGet "P" (md9P "init") =
      some ⟨[], [⟨"init", none, none, some "public"⟩], []⟩ := by
  refine ⟨?_, ?_, ?_⟩
  · rw [initializer_split_by_dialect.1 "initialize"]
    decide
  · rw [initializer_split_by_dialect.2.1 "initialize" (by decide)]
    decide
  · rw [initializer_split_by_dialect.2.2 "init" (by decide)]

/-! Claim C4: the extendedIn scan matches on the extension's own name. -/

theorem extensionsOfFile_mem (repo n sf : String) (acc : List (String × List String))
    (p : String × FileData) (e : String × List String) :
    e ∈ extensionsOfFile repo n sf acc p ↔ e ∈ acc ∨
      (getRelativePath repo p.1 ≠ sf ∧ ∃ ext ∈ p.2.symbols.extensions,
        ext.name = n ∧ e = (getRelativePath repo p.1, ext.inheritedTypes)) := by
  unfold extensionsOfFile
  by_cases h : getRelativePath repo p.1 = sf
  · simp [h]
  · rw [if_neg h]
    constructor
    · intro he
      rcases List.mem_append.mp he with ha | hm
      · exact Or.inl ha
      · rcases List.mem_map.mp hm with ⟨ext, hf, rfl⟩
        rcases List.mem_filter.mp hf with ⟨hmem, hname⟩
        exact Or.inr ⟨h, ext, hmem, of_decide_eq_true hname, rfl⟩
    · rintro (ha | ⟨-, ext, hmem, hname, rfl⟩)
      · exact List.mem_append.mpr (Or.inl ha)
      · refine List.mem_append.mpr (Or.inr ?_)
        exact List.mem_map.mpr ⟨ext, List.mem_filter.mpr ⟨hmem, decide_eq_true hname⟩, rfl⟩

theorem mem_extensionsOf_foldl (repo n sf : String) (files : List (String × FileData)) :
    ∀ (acc : List (String × List String)) (e : String × List String),
    e ∈ files.foldl (extensionsOfFile repo n sf) acc ↔ e ∈ acc ∨
      ∃ p ∈ files, getRelativePath repo p.1 ≠ sf ∧ ∃ ext ∈ p.2.symbols.extensions,
        ext.name = n ∧ e = (getRelativePath repo p.1, ext.inheritedTypes) := by
  induction files with
  | nil => simp
  | cons q rest ih =>
    intro acc e
    rw [List.foldl_cons, ih, extensionsOfFile_mem]
    constructor
    · rintro ((ha | hq) | ⟨p, hp, hrest⟩)
      · exact Or.inl ha
      · exact Or.inr ⟨q, List.mem_cons_self q rest, hq⟩
      · exact Or.inr ⟨p, List.mem_cons_of_mem q hp, hrest⟩
    · rintro (ha | ⟨p, hp, hcond⟩)
      · exact Or.inl (Or.inl ha)
      · rcases List.mem_cons.mp hp with rfl | hp2
        · exact Or.inl (Or.inr hcond)
        · exact Or.inr ⟨p, hp2, hcond⟩

/-- Counterexample to C4: on the Shape B fixture, unit B's category does
target `Foo` (its `extendedType` is `Foo`), yet `usages("Foo").extendedIn`
is empty because the category is recorded under the name `Foo(Additions)`. -/
theorem extendedIn_counterexample :
    (findSymbol gC4B "Foo").map (fun r => r.symbol.file) = some "A.h" ∧
    (extractObjCSymbols astC4B2 "/r/B.m").1.extensions.map
      (fun s => s.extendedType) = [some "Foo"] ∧
    ¬ (("B.m", ["Bar"]) ∈ extensionsOf gC4B "Foo" "A.h") := by decide

/-- C4 (amended): `usages(N).extendedIn` contains exactly the
extension-kind symbols of other units whose own stored name equals `N`.
A Shape A extension of `Foo` is stored under the name `Foo` and is
reported; a Shape B category `Foo(Additions)` is stored under that
compound name, so it is reported only for the query `Foo(Additions)` and
never for `Foo`. -/
theorem extendedIn_exact_name_matches :
    (∀ (g : Graph) (n sf : String) (e : String × List String),
      e ∈ extensionsOf g n sf ↔
        ∃ p ∈ g.files, getRelativePath g.repoPath p.1 ≠ sf ∧
          ∃ ext ∈ p.2.symbols.extensions, ext.name = n ∧
            e = (getRelativePath g.repoPath p.1, ext.inheritedTypes)) ∧
    extensionsOf gC4A "Foo" "A.swift" = [("B.swift", ["Bar"])] ∧
    fdC4B2.symbols.extensions = [⟨"Foo(Additions)", "source.lang.objc.decl.extension",
      "/r/B.m", ["Bar"], some "internal", none, none, none, some "Foo"⟩] ∧
    extensionsOf gC4B "Foo" "A.h" = [] ∧
    extensionsOf gC4B "Foo(Additions)" "A.h" = [("B.m", ["Bar"])] := by
  refine ⟨?_, by decide, by decide, by decide, by decide⟩
  intro g n sf e
  rw [extensionsOf, mem_extensionsOf_foldl]
  simp

/-- Witness for C4 (amended): the Shape A fixture entry, through the
characterization. -/
theorem extendedIn_exact_name_matches_witness :
    ("B.swift", ["Bar"]) ∈ extensionsOf gC4A "Foo" "A.swift" := by
  rw [extendedIn_exact_name_matches.1 gC4A "Foo" "A.swift" ("B.swift", ["Bar"])]
  refine ⟨("/r/B.swift", fdC4A2), by decide, by decide, ?_⟩
  refine ⟨⟨"Foo", "source.lang.swift.decl.extension", "/r/B.swift", ["Bar"],
    none, none, none, none, some "Foo"⟩, by decide, by decide, by decide⟩

/-! Claim C2: duplicate type names — last write wins in the type map,
both locations recorded in byName. -/

/-- C2: for two units processed in order, each declaring one
class/struct/protocol/enum with the same name, the type-map entry is the
one of the last-processed unit (silent overwrite), while `byName` holds
one location entry per declaring unit, in processing order. -/
theorem duplicate_name_last_wins :
    ∀ (repo f1 f2 : String) (k1 k2 : TypeKind) (c1 c2 : SymbolInfo),
      c2.name = c1.name →
      (alGet c1.name (buildTypeMap repo
          [(f1, ⟨oneTypeTable k1 c1, [], "swift"⟩),
           (f2, ⟨oneTypeTable k2 c2, [], "swift"⟩)]) =
        some ⟨getRelativePath repo f2, typeKindStr k2, c2⟩) ∧
      (alGet c1.name (buildIndexes repo
          [(f1, ⟨oneTypeTable k1 c1, [], "swift"⟩),
           (f2, ⟨oneTypeTable k2 c2, [], "swift"⟩)]).byName =
        some [⟨getRelativePath repo f1, typeKindStr k1⟩,
              ⟨getRelativePath repo f2, typeKindStr k2⟩]) := by
  intro repo f1 f2 k1 k2 c1 c2 h
  cases k1 <;> cases k2 <;>
    refine ⟨?_, ?_⟩ <;>
    simp [buildTypeMap, typeMapAddFile, buildIndexes, indexesAddFile, processSymbols,
      oneTypeTable, typeKindStr, alUpsert, alPush, alEnsure, alGet, h]

/-- Witness for C2: two units declaring a class `Foo`, the second one in
a struct-versus-class mix kept simple: both classes. -/
theorem duplicate_name_last_wins_witness :
    (alGet "Foo" (buildTypeMap "/r"
        [("/r/F1.swift", ⟨oneTypeTable TypeKind.cls
            ⟨"Foo", "source.lang.swift.decl.class", "/r/F1.swift", [], none, none, none, none, none⟩,
            [], "swift"⟩),
         ("/r/F2.swift", ⟨oneTypeTable TypeKind.cls
            ⟨"Foo", "source.lang.swift.decl.class", "/r/F2.swift", [], none, none, none, none, none⟩,
            [], "swift"⟩)]) =
      some ⟨"F2.swift", "class",
        ⟨"Foo", "source.lang.swift.decl.class", "/r/F2.swift", [], none, none, none, none, none⟩⟩) ∧
    (alGet "Foo" (buildIndexes "/r"
        [("/r/F1.swift", ⟨oneTypeTable TypeKind.cls
            ⟨"Foo", "source.lang.swift.decl.class", "/r/F1.swift", [], none, none, none, none, none⟩,
            [], "swift"⟩),
         ("/r/F2.swift", ⟨oneTypeTable TypeKind.cls
            ⟨"Foo", "source.lang.swift.decl.class", "/r/F2.swift", [], none, none, none, none, none⟩,
            [], "swift"⟩)]).byName =
      some [⟨"F1.swift", "class"⟩, ⟨"F2.swift", "class"⟩]) :=
  duplicate_name_last_wins "/r" "/r/F1.swift" "/r/F2.swift" TypeKind.cls TypeKind.cls
    ⟨"Foo", "source.lang.swift.decl.class", "/r/F1.swift", [], none, none, none, none, none⟩
    ⟨"Foo", "source.lang.swift.decl.class", "/r/F2.swift", [], none, none, none, none, none⟩
    (by decide)

/-! Claim C6: bucket classification is substring-based, first match wins. -/

theorem extractSymbols_leaf_red (f k n : String) :
    extractSymbols (leafA (some k) (some n)) f =
      (if jsTruthy (some k) && jsTruthy (some n)
        then classifyA f k n [] none none none none SymbolTable.empty
        else SymbolTable.empty) := rfl

theorem extractSymbols_leaf_noname_red (f k : String) :
    extractSymbols (leafA (some k) none) f =
      (if jsTruthy (some k) && jsTruthy none
        then classifyA f k "" [] none none none none SymbolTable.empty
        else SymbolTable.empty) := rfl

/-- C6: a node with truthy kind and name tags lands in exactly the bucket
selected by case-sensitive substring matching on the kind tag with
first-match-wins priority class, struct, protocol, enum, extension,
function/method, variable; a node with a kind tag but no name tag is
never classified. -/
theorem classification_first_match_wins :
    (∀ (f k n : String), k ≠ "" → n ≠ "" →
      extractSymbols (leafA (some k) (some n)) f =
        ⟨(if strContainsSub k "class"
            then [⟨n, k, f, [], none, none, none, none, none⟩] else []),
         (if !strContainsSub k "class" && strContainsSub k "struct"
            then [⟨n, k, f, [], none, none, none, none, none⟩] else []),
         (if !strContainsSub k "class" && !strContainsSub k "struct" &&
              strContainsSub k "protocol"
            then [⟨n, k, f, [], none, none, none, none, none⟩] else []),
         (if !strContainsSub k "class" && !strContainsSub k "struct" &&
              !strContainsSub k "protocol" && !strContainsSub k "enum" &&
              !strContainsSub k "extension" &&
              (strContainsSub k "function" || strContainsSub k "method")
            then [⟨n, k, f, [], none, none, none, none, none⟩] else []),
         (if !strContainsSub k "class" && !strContainsSub k "struct" &&
              !strContainsSub k "protocol" && strContainsSub k "enum"
            then [⟨n, k, f, [], none, none, none, none, none⟩] else []),
         (if !strContainsSub k "class" && !strContainsSub k "struct" &&
              !strContainsSub k "protocol" && !strContainsSub k "enum" &&
              strContainsSub k "extension"
            then [⟨n, k, f, [], none, none, none, none, some n⟩] else []),
         (if !strContainsSub k "class" && !strContainsSub k "struct" &&
              !strContainsSub k "protocol" && !strContainsSub k "enum" &&
              !strContainsSub k "extension" &&
              !(strContainsSub k "function" || strContainsSub k "method") &&
              strContainsSub k "var"
            then [⟨n, k, f, [], none, none, none, none, none⟩] else [])⟩) ∧
    (∀ (f k : String), extractSymbols (leafA (some k) none) f = SymbolTable.empty) := by
  constructor
  · intro f k n hk hn
    have hg : (jsTruthy (some k) && jsTruthy (some n)) = true := by
      simp [jsTruthy, hk, hn]
    rw [extractSymbols_leaf_red, hg, if_pos rfl]
    cases h1 : strContainsSub k "class" with
    | true => simp [classifyA, h1, SymbolTable.empty]
    | false =>
    cases h2 : strContainsSub k "struct" with
    | true => simp [classifyA, h1, h2, SymbolTable.empty]
    | false =>
    cases h3 : strContainsSub k "protocol" with
    | true => simp [classifyA, h1, h2, h3, SymbolTable.empty]
    | false =>
    cases h4 : strContainsSub k "enum" with
    | true => simp [classifyA, h1, h2, h3, h4, SymbolTable.empty]
    | false =>
    cases h5 : strContainsSub k "extension" with
    | true => simp [classifyA, h1, h2, h3, h4, h5, SymbolTable.empty]
    | false =>
    cases h6 : (strContainsSub k "function" || strContainsSub k "method") with
    | true => simp [classifyA, h1, h2, h3, h4, h5, h6, SymbolTable.empty]
    | false =>
    cases h7 : strContainsSub k "var" with
    | true => simp [classifyA, h1, h2, h3, h4, h5, h6, h7, SymbolTable.empty]
    | false => simp [classifyA, h1, h2, h3, h4, h5, h6, h7, SymbolTable.empty]
  · intro f k
    rw [extractSymbols_leaf_noname_red]
    simp [jsTruthy]

/-- Witness for C6: a kind tag containing both `class` and `struct` lands
in the class bucket, and the unnamed case on a concrete kind. -/
theorem classification_first_match_wins_witness :
    extractSymbols (leafA (some "fake.classstruct.kind") (some "S")) "f" =
      ⟨[⟨"S", "fake.classstruct.kind", "f", [], none, none, none, none, none⟩],
        [], [], [], [], [], []⟩ ∧
    extractSymbols (leafA (some "source.lang.swift.decl.struct") none) "f" =
      SymbolTable.empty := by
  constructor
  · rw [classification_first_match_wins.1 "f" "fake.classstruct.kind" "S"
      (by decide) (by decide)]
    decide
  · exact classification_first_match_wins.2 "f" "source.lang.swift.decl.struct"

/-! Claim C8: search is the case-insensitive substring filter of the
ordered enumeration, restricted by the kind filter. -/

theorem searchAddBucket_filter (rel q kind : String) (results : List SearchResult)
    (syms : List SymbolInfo) :
    searchAddBucket rel q kind results syms =
      results ++ (syms.map (fun s =>
        (⟨s.name, kind, rel, s.inheritedTypes⟩ : SearchResult))).filter (searchPred q) := by
  induction syms generalizing results with
  | nil => simp [searchAddBucket]
  | cons s rest ih =>
    have step : searchAddBucket rel q kind results (s :: rest) =
        searchAddBucket rel q kind
          (if strContainsSub (jsToLower s.name) q then
            results ++ [⟨s.name, kind, rel, s.inheritedTypes⟩] else results) rest := rfl
    rw [step, ih]
    cases h : strContainsSub (jsToLower s.name) q
    · simp [h, searchPred]
    · simp [h, searchPred]

theorem searchAddFile_eq (repo q ty : String) (results : List SearchResult)
    (p : String × FileData) :
    searchAddFile repo q ty results p =
      results ++ (searchEnumFile repo ty [] p).filter (searchPred q) := by
  simp only [searchAddFile, searchEnumFile]
  split_ifs <;>
    simp [searchAddBucket_filter, List.filter_append, List.append_assoc]

theorem searchEnumFile_append (repo ty : String) (acc : List SearchResult)
    (p : String × FileData) :
    searchEnumFile repo ty acc p = acc ++ searchEnumFile repo ty [] p := by
  simp only [searchEnumFile]
  split_ifs <;> simp [List.append_assoc]

theorem searchEnumFold_append (repo ty : String) (files : List (String × FileData)) :
    ∀ acc : List SearchResult,
      files.foldl (searchEnumFile repo ty) acc =
        acc ++ files.foldl (searchEnumFile repo ty) [] := by
  induction files with
  | nil => simp
  | cons p rest ih =>
    intro acc
    rw [List.foldl_cons, ih, List.foldl_cons, searchEnumFile_append,
      ih (searchEnumFile repo ty [] p), List.append_assoc]

theorem searchFold_filter (repo q ty : String) (files : List (String × FileData)) :
    ∀ acc : List SearchResult,
      files.foldl (searchAddFile repo q ty) acc =
        acc ++ (files.foldl (searchEnumFile repo ty) []).filter (searchPred q) := by
  induction files with
  | nil => simp
  | cons p rest ih =>
    intro acc
    rw [List.foldl_cons, List.foldl_cons, ih, searchAddFile_eq,
      searchEnumFold_append repo ty rest (searchEnumFile repo ty [] p),
      List.filter_append, List.append_assoc]

theorem mem_ite_append {b : Bool} {acc l : List SearchResult} {r : SearchResult}
    (h : r ∈ (if b then acc ++ l else acc)) : r ∈ acc ∨ (b = true ∧ r ∈ l) := by
  cases b
  · simp at h
    exact Or.inl h
  · simp at h
    rcases h with h | h
    · exact Or.inl h
    · exact Or.inr ⟨rfl, h⟩

theorem mem_searchEnumFile_kind {repo ty : String} {p : String × FileData}
    {r : SearchResult} (hty : ty ≠ "all") (acc : List SearchResult)
    (hr : r ∈ searchEnumFile repo ty acc p) : r ∈ acc ∨ r.kind = ty := by
  simp only [searchEnumFile] at hr
  rcases mem_ite_append hr with hr4 | ⟨hg, hrow⟩
  rotate_left
  · rcases List.mem_map.mp hrow with ⟨s, _, rfl⟩
    rcases Bool.or_eq_true_iff.mp hg with h | h
    · exact absurd (of_decide_eq_true h) hty
    · exact Or.inr (of_decide_eq_true h).symm
  rcases mem_ite_append hr4 with hr3 | ⟨hg, hrow⟩
  rotate_left
  · rcases List.mem_map.mp hrow with ⟨s, _, rfl⟩
    rcases Bool.or_eq_true_iff.mp hg with h | h
    · exact absurd (of_decide_eq_true h) hty
    · exact Or.inr (of_decide_eq_true h).symm
  rcases mem_ite_append hr3 with hr2 | ⟨hg, hrow⟩
  rotate_left
  · rcases List.mem_map.mp hrow with ⟨s, _, rfl⟩
    rcases Bool.or_eq_true_iff.mp hg with h | h
    · exact absurd (of_decide_eq_true h) hty
    · exact Or.inr (of_decide_eq_true h).symm
  rcases mem_ite_append hr2 with hr1 | ⟨hg, hrow⟩
  rotate_left
  · rcases List.mem_map.mp hrow with ⟨s, _, rfl⟩
    rcases Bool.or_eq_true_iff.mp hg with h | h
    · exact absurd (of_decide_eq_true h) hty
    · exact Or.inr (of_decide_eq_true h).symm
  rcases mem_ite_append hr1 with hr0 | ⟨hg, hrow⟩
  · exact Or.inl hr0
  · rcases List.mem_map.mp hrow with ⟨s, _, rfl⟩
    rcases Bool.or_eq_true_iff.mp hg with h | h
    · exact absurd (of_decide_eq_true h) hty
    · exact Or.inr (of_decide_eq_true h).symm

theorem mem_searchEnumeration_kind {g : Graph} {ty : String} {r : SearchResult}
    (hty : ty ≠ "all") (hr : r ∈ searchEnumeration g ty) : r.kind = ty := by
  have main : ∀ (files : List (String × FileData)) (acc : List SearchResult),
      (∀ x ∈ acc, x.kind = ty) →
      ∀ x ∈ files.foldl (searchEnumFile g.repoPath ty) acc, x.kind = ty := by
    intro files
    induction files with
    | nil => intro acc h x hx; exact h x hx
    | cons p rest ih =>
      intro acc h x hx
      refine ih _ ?_ x hx
      intro y hy
      rcases mem_searchEnumFile_kind hty acc hy with hacc | hk
      · exact h y hacc
      · exact hk
  exact main g.files [] (by simp) r hr

/-- C8: `search(query, kindFilter)` is exactly the case-insensitive
substring filter of the ordered enumeration (unit order, then the fixed
bucket order class/struct/protocol/function/enum, then declaration
order); a non-`all` kind filter admits only symbols of that kind; and on
the fixture, `search("user")` returns both `User` classes and the
matching function while `search("user", class)` keeps only the classes. -/
theorem search_substring_filter :
    (∀ (g : Graph) (q ty : String),
      searchSymbols g q ty = (searchEnumeration g ty).filter (searchPred (jsToLower q))) ∧
    (∀ (g : Graph) (q ty : String) (r : SearchResult),
      r ∈ searchSymbols g q ty → ty ≠ "all" → r.kind = ty) ∧
    searchSymbols gC8 "user" "all" =
      [⟨"UserManager", "class", "U.swift", []⟩,
       ⟨"UserViewModel", "class", "U.swift", []⟩,
       ⟨"userHelper()", "function", "U.swift", []⟩] ∧
    searchSymbols gC8 "user" "class" =
      [⟨"UserManager", "class", "U.swift", []⟩,
       ⟨"UserViewModel", "class", "U.swift", []⟩] := by
  refine ⟨?_, ?_, by decide, by decide⟩
  · intro g q ty
    exact searchFold_filter g.repoPath (jsToLower q) ty g.files []
  · intro g q ty r hr hty
    have h1 : searchSymbols g q ty =
        (searchEnumeration g ty).filter (searchPred (jsToLower q)) :=
      searchFold_filter g.repoPath (jsToLower q) ty g.files []
    rw [h1] at hr
    exact mem_searchEnumeration_kind hty (List.mem_of_mem_filter hr)

/-- Witness for C8: the kind-restriction applied to a concrete fixture
row. -/
theorem search_substring_filter_witness :
    (⟨"UserManager", "class", "U.swift", []⟩ : SearchResult).kind = "class" :=
  search_substring_filter.2.1 gC8 "user" "class"
    ⟨"UserManager", "class", "U.swift", []⟩ (by decide) (by decide)

/-! Claim C5: which symbols the byFile index records. -/

theorem processSymbols_byFile (rel : String) (idx : Indexes) (syms : List SymbolInfo)
    (kind : String) :
    (processSymbols rel idx syms kind).byFile =
      syms.foldl (fun bf s => alPush rel s.name bf) idx.byFile := by
  suffices h : ∀ idx0 : Indexes,
      (syms.foldl (fun idx s =>
        ({ byName := alPush s.name ⟨rel, kind⟩ idx.byName
           byKind := alPush kind s.name idx.byKind
           byFile := alPush rel s.name idx.byFile } : Indexes)) idx0).byFile =
      syms.foldl (fun bf s => alPush rel s.name bf) idx0.byFile by
    exact h { idx with byKind := alEnsure kind idx.byKind }
  induction syms with
  | nil => intro idx0; rfl
  | cons s rest ih =>
    intro idx0
    rw [List.foldl_cons, List.foldl_cons, ih]

theorem pushFold_get_self (rel : String) (syms : List SymbolInfo) :
    ∀ (bf : List (String × List String)) (l : List String), alGet rel bf = some l →
      alGet rel (syms.foldl (fun bf s => alPush rel s.name bf) bf) =
        some (l ++ syms.map (fun s => s.name)) := by
  induction syms with
  | nil => intro bf l h; simpa using h
  | cons s rest ih =>
    intro bf l h
    rw [List.foldl_cons]
    have h2 : alGet rel (alPush rel s.name bf) = some (l ++ [s.name]) := by
      rw [alGet_alPush_self, h]
      rfl
    rw [ih (alPush rel s.name bf) (l ++ [s.name]) h2]
    simp

theorem pushFold_get_ne {rel rel' : String} (h : rel' ≠ rel) (syms : List SymbolInfo)
    (bf : List (String × List String)) :
    alGet rel' (syms.foldl (fun bf s => alPush rel s.name bf) bf) = alGet rel' bf := by
  induction syms generalizing bf with
  | nil => rfl
  | cons s rest ih =>
    rw [List.foldl_cons, ih, alGet_alPush_ne h]

theorem indexesAddFile_byFile_red (repo : String) (idx : Indexes) (p : String × FileData) :
    (indexesAddFile repo idx p).byFile =
      p.2.symbols.functions.foldl
        (fun bf s => alPush (getRelativePath repo p.1) s.name bf)
        (p.2.symbols.enums.foldl
          (fun bf s => alPush (getRelativePath repo p.1) s.name bf)
          (p.2.symbols.protocols.foldl
            (fun bf s => alPush (getRelativePath repo p.1) s.name bf)
            (p.2.symbols.structs.foldl
              (fun bf s => alPush (getRelativePath repo p.1) s.name bf)
              (p.2.symbols.classes.foldl
                (fun bf s => alPush (getRelativePath repo p.1) s.name bf)
                (alUpsert (getRelativePath repo p.1) [] idx.byFile))))) := by
  simp only [indexesAddFile, processSymbols_byFile]

theorem indexesAddFile_byFile_get_self (repo : String) (idx : Indexes)
    (p : String × FileData) :
    alGet (getRelativePath repo p.1) ((indexesAddFile repo idx p).byFile) =
      some (indexedNames p.2.symbols) := by
  rw [indexesAddFile_byFile_red]
  have h0 := alGet_alUpsert_self (getRelativePath repo p.1) ([] : List String) idx.byFile
  have h1 := pushFold_get_self _ p.2.symbols.classes _ _ h0
  have h2 := pushFold_get_self _ p.2.symbols.structs _ _ h1
  have h3 := pushFold_get_self _ p.2.symbols.protocols _ _ h2
  have h4 := pushFold_get_self _ p.2.symbols.enums _ _ h3
  have h5 := pushFold_get_self _ p.2.symbols.functions _ _ h4
  rw [h5]
  simp [indexedNames]

theorem indexesAddFile_byFile_get_ne {repo rel' : String} {p : String × FileData}
    (h : rel' ≠ getRelativePath repo p.1) (idx : Indexes) :
    alGet rel' ((indexesAddFile repo idx p).byFile) = alGet rel' idx.byFile := by
  rw [indexesAddFile_byFile_red]
  rw [pushFold_get_ne h, pushFold_get_ne h, pushFold_get_ne h, pushFold_get_ne h,
    pushFold_get_ne h, alGet_alUpsert_ne h]

theorem foldIndexes_byFile_ne (repo rel' : String) (files : List (String × FileData)) :
    ∀ idx : Indexes, rel' ∉ files.map (fun q => getRelativePath repo q.1) →
      alGet rel' ((files.foldl (indexesAddFile repo) idx).byFile) =
        alGet rel' idx.byFile := by
  induction files with
  | nil => intro idx _; rfl
  | cons q rest ih =>
    intro idx hnot
    rw [List.foldl_cons, ih _ (fun hc => hnot (by simp [hc]))]
    exact indexesAddFile_byFile_get_ne (fun hc => hnot (by simp [hc])) idx

theorem byFile_char (repo : String) (files : List (String × FileData)) :
    ∀ (idx : Indexes) (p : String × FileData), p ∈ files →
      (files.map (fun q => getRelativePath repo q.1)).Nodup →
      alGet (getRelativePath repo p.1) ((files.foldl (indexesAddFile repo) idx).byFile) =
        some (indexedNames p.2.symbols) := by
  induction files with
  | nil => intro idx p hp _; exact absurd hp (List.not_mem_nil p)
  | cons q rest ih =>
    intro idx p hp hnd
    rcases List.mem_cons.mp hp with rfl | hp'
    · rw [List.foldl_cons]
      have hnot : getRelativePath repo p.1 ∉ rest.map (fun r => getRelativePath repo r.1) := by
        have := hnd
        rw [List.map_cons, List.nodup_cons] at this
        exact this.1
      rw [foldIndexes_byFile_ne repo _ rest _ hnot]
      exact indexesAddFile_byFile_get_self repo idx p
    · rw [List.foldl_cons]
      refine ih _ p hp' ?_
      rw [List.map_cons, List.nodup_cons] at hnd
      exact hnd.2

/-- Counterexample to C5: a unit declaring only an extension named `Foo`
has an empty `byFile` entry — extension-bucket symbols are not indexed. -/
theorem byFile_counterexample :
    fdC5.symbols.extensions.map (fun s => s.name) = ["Foo"] ∧
    alGet "E.swift" gC5.indexes.byFile = some [] ∧
    ¬ ("Foo" ∈ (alGet "E.swift" gC5.indexes.byFile).getD []) := by decide

/-- C5 (amended): for every unit and every symbol in one of the five
indexed bucket families (classes, structs, protocols, enums, functions),
`byFile` of that unit contains the symbol's name, provided distinct units
have distinct relative paths; extension- and variable-bucket symbols are
not indexed. -/
theorem byFile_contains_indexed_names :
    ∀ (repo : String) (files : List (String × FileData)) (p : String × FileData)
      (s : SymbolInfo),
      p ∈ files →
      (files.map (fun q => getRelativePath repo q.1)).Nodup →
      s ∈ p.2.symbols.classes ++ p.2.symbols.structs ++ p.2.symbols.protocols ++
          p.2.symbols.enums ++ p.2.symbols.functions →
      s.name ∈ (alGet (getRelativePath repo p.1)
        ((buildIndexes repo files).byFile)).getD [] := by
  intro repo files p s hp hnd hs
  have hchar := byFile_char repo files ⟨[], [], []⟩ p hp hnd
  have he : (buildIndexes repo files).byFile =
      (files.foldl (indexesAddFile repo) ⟨[], [], []⟩).byFile := rfl
  rw [he, hchar]
  simp only [Option.getD_some, indexedNames]
  exact List.mem_map.mpr ⟨s, hs, rfl⟩

/-- Witness for C5 (amended): the fixture class `Base` is recorded in its
unit's byFile entry. -/
theorem byFile_contains_indexed_names_witness :
    "Base" ∈ (alGet (getRelativePath "/r" "/r/A.swift")
      ((buildIndexes "/r" [("/r/A.swift", fdC1)]).byFile)).getD [] :=
  byFile_contains_indexed_names "/r" [("/r/A.swift", fdC1)] ("/r/A.swift", fdC1)
    ⟨"Base", "source.lang.swift.decl.class", "/r/A.swift", [], none, none, none, none, none⟩
    (by decide) (by decide) (by decide)

/-! Claim C7: the referencedIn heuristic. -/

theorem referencedInFold_eq (repo n sf : String) (fws : List String)
    (files : List (String × FileData)) :
    ∀ acc : List String,
      files.foldl (referencedInFile repo n sf fws) acc =
        acc ++ (files.filter (fun p => !decide (getRelativePath repo p.1 = sf) &&
          usesSymbolIn fws (getRelativePath repo p.1) n p.2.symbols)).map
          (fun p => getRelativePath repo p.1) := by
  induction files with
  | nil => simp
  | cons q rest ih =>
    intro acc
    rw [List.foldl_cons, ih]
    by_cases h1 : getRelativePath repo q.1 = sf
    · simp [referencedInFile, h1]
    · cases h2 : usesSymbolIn fws (getRelativePath repo q.1) n q.2.symbols
      · simp [referencedInFile, h1, h2]
      · simp [referencedInFile, h1, h2]

theorem usesSymbolIn_iff (fws : List String) (rel n : String) (st : SymbolTable) :
    usesSymbolIn fws rel n st = true ↔
      rel ∈ fws ∨ ∃ s ∈ allSymbolsList st,
        s.typeName = some n ∨ n ∈ s.inheritedTypes := by
  simp only [usesSymbolIn, allBuckets, allSymbolsList, Bool.or_eq_true,
    decide_eq_true_eq, List.any_eq_true]
  constructor
  · rintro (h | ⟨bl, hbl, s, hs, hcond⟩)
    · exact Or.inl h
    · refine Or.inr ⟨s, ?_, hcond⟩
      simp only [List.mem_cons, List.not_mem_nil, or_false] at hbl
      simp only [List.mem_append]
      rcases hbl with rfl | rfl | rfl | rfl | rfl | rfl | rfl
      · exact Or.inl (Or.inl (Or.inl (Or.inl (Or.inl (Or.inl hs)))))
      · exact Or.inl (Or.inl (Or.inl (Or.inl (Or.inl (Or.inr hs)))))
      · exact Or.inl (Or.inl (Or.inl (Or.inl (Or.inr hs))))
      · exact Or.inl (Or.inl (Or.inl (Or.inr hs)))
      · exact Or.inl (Or.inl (Or.inr hs))
      · exact Or.inl (Or.inr hs)
      · exact Or.inr hs
  · rintro (h | ⟨s, hs, hcond⟩)
    · exact Or.inl h
    · simp only [List.mem_append] at hs
      refine Or.inr ?_
      rcases hs with ((((((hs | hs) | hs) | hs) | hs) | hs) | hs)
      · exact ⟨st.classes, by simp, s, hs, hcond⟩
      · exact ⟨st.structs, by simp, s, hs, hcond⟩
      · exact ⟨st.protocols, by simp, s, hs, hcond⟩
      · exact ⟨st.functions, by simp, s, hs, hcond⟩
      · exact ⟨st.enums, by simp, s, hs, hcond⟩
      · exact ⟨st.extensions, by simp, s, hs, hcond⟩
      · exact ⟨st.vars, by simp, s, hs, hcond⟩

theorem mem_filesWithSymbol (g : Graph) (n sf rel : String) :
    rel ∈ filesWithSymbol g n sf ↔
      ∃ loc ∈ (alGet n g.indexes.byName).getD [], loc.file = rel ∧ rel ≠ sf := by
  simp only [filesWithSymbol, List.mem_filterMap]
  constructor
  · rintro ⟨loc, hmem, hf⟩
    by_cases h : loc.file = sf
    · rw [if_neg (by simp [h])] at hf
      exact absurd hf (by simp)
    · rw [if_pos h] at hf
      rcases Option.some.inj hf with rfl
      exact ⟨loc, hmem, rfl, h⟩
  · rintro ⟨loc, hmem, rfl, hne⟩
    exact ⟨loc, hmem, by rw [if_pos hne]⟩

/-- C7: `usages(N).referencedIn` contains a unit exactly when it is a
non-defining unit that either also declares a symbol named `N`
(byName heuristic) or contains a symbol whose `typeName` is `N` or whose
`inheritedTypes` include `N`; the defining unit is always excluded, and
the list has no duplicates when distinct units have distinct relative
paths. -/
theorem referencedIn_characterization :
    ∀ (g : Graph) (n sf : String),
      (∀ rel : String, rel ∈ referencedInOf g n sf ↔
        ∃ p ∈ g.files, getRelativePath g.repoPath p.1 = rel ∧ rel ≠ sf ∧
          ((∃ loc ∈ (alGet n g.indexes.byName).getD [], loc.file = rel) ∨
           ∃ s ∈ allSymbolsList p.2.symbols,
             s.typeName = some n ∨ n ∈ s.inheritedTypes)) ∧
      sf ∉ referencedInOf g n sf ∧
      ((g.files.map (fun p => getRelativePath g.repoPath p.1)).Nodup →
        (referencedInOf g n sf).Nodup) := by
  intro g n sf
  have hd : referencedInOf g n sf =
      (g.files.filter (fun p => !decide (getRelativePath g.repoPath p.1 = sf) &&
        usesSymbolIn (filesWithSymbol g n sf) (getRelativePath g.repoPath p.1) n
          p.2.symbols)).map (fun p => getRelativePath g.repoPath p.1) := by
    have h := referencedInFold_eq g.repoPath n sf (filesWithSymbol g n sf) g.files []
    simpa [referencedInOf] using h
  refine ⟨?_, ?_, ?_⟩
  · intro rel
    rw [hd]
    simp only [List.mem_map, List.mem_filter, Bool.and_eq_true, Bool.not_eq_true',
      decide_eq_false_iff_not]
    constructor
    · rintro ⟨p, ⟨hp, hne, huse⟩, rfl⟩
      refine ⟨p, hp, rfl, hne, ?_⟩
      rcases (usesSymbolIn_iff _ _ _ _).mp huse with hfw | hscan
      · rcases (mem_filesWithSymbol g n sf _).mp hfw with ⟨loc, hmem, hfile, _⟩
        exact Or.inl ⟨loc, hmem, hfile⟩
      · exact Or.inr hscan
    · rintro ⟨p, hp, rfl, hne, hcond⟩
      refine ⟨p, ⟨hp, hne, ?_⟩, rfl⟩
      refine (usesSymbolIn_iff _ _ _ _).mpr ?_
      rcases hcond with ⟨loc, hmem, hfile⟩ | hscan
      · exact Or.inl ((mem_filesWithSymbol g n sf _).mpr ⟨loc, hmem, hfile, hne⟩)
      · exact Or.inr hscan
  · rw [hd]
    rintro hmem
    rcases List.mem_map.mp hmem with ⟨p, hpf, hrel⟩
    rcases List.mem_filter.mp hpf with ⟨_, hpred⟩
    rw [hrel] at hpred
    simp at hpred
  · intro hnd
    rw [hd]
    exact hnd.sublist ((List.filter_sublist g.files).map _)

/-- Witness for C7: on the Shape A extension fixture, unit B references
`Bar` through the conformance list of its extension of `Foo`. -/
theorem referencedIn_characterization_witness :
    "B.swift" ∈ referencedInOf gC4A "Bar" "X.swift" := by
  rw [(referencedIn_characterization gC4A "Bar" "X.swift").1 "B.swift"]
  refine ⟨("/r/B.swift", fdC4A2), by decide, by decide, by decide, Or.inr ?_⟩
  refine ⟨⟨"Foo", "source.lang.swift.decl.extension", "/r/B.swift", ["Bar"],
    none, none, none, none, some "Foo"⟩, by decide, Or.inr (by decide)⟩

/-! Claim C10: every recorded symbol name is non-empty. -/

theorem jsTruthy_getD_ne {n : Option String} (h : jsTruthy n = true) :
    n.getD "" ≠ "" := by
  cases n with
  | none => exact absurd h (by simp [jsTruthy])
  | some s =>
    simp only [Option.getD_some]
    exact of_decide_eq_true h

theorem nonEmpty_push_classes {st : SymbolTable} (hst : nonEmptyNames st)
    {info : SymbolInfo} (hn : info.name ≠ "") :
    nonEmptyNames { st with classes := st.classes ++ [info] } := by
  obtain ⟨h1, h2, h3, h4, h5, h6, h7⟩ := hst
  refine ⟨?_, h2, h3, h4, h5, h6, h7⟩
  intro s hs
  rcases List.mem_append.mp hs with h | h
  · exact h1 s h
  · rw [List.mem_singleton] at h
    subst h
    exact hn

theorem nonEmpty_push_structs {st : SymbolTable} (hst : nonEmptyNames st)
    {info : SymbolInfo} (hn : info.name ≠ "") :
    nonEmptyNames { st with structs := st.structs ++ [info] } := by
  obtain ⟨h1, h2, h3, h4, h5, h6, h7⟩ := hst
  refine ⟨h1, ?_, h3, h4, h5, h6, h7⟩
  intro s hs
  rcases List.mem_append.mp hs with h | h
  · exact h2 s h
  · rw [List.mem_singleton] at h
    subst h
    exact hn

theorem nonEmpty_push_protocols {st : SymbolTable} (hst : nonEmptyNames st)
    {info : SymbolInfo} (hn : info.name ≠ "") :
    nonEmptyNames { st with protocols := st.protocols ++ [info] } := by
  obtain ⟨h1, h2, h3, h4, h5, h6, h7⟩ := hst
  refine ⟨h1, h2, ?_, h4, h5, h6, h7⟩
  intro s hs
  rcases List.mem_append.mp hs with h | h
  · exact h3 s h
  · rw [List.mem_singleton] at h
    subst h
    exact hn

theorem nonEmpty_push_functions {st : SymbolTable} (hst : nonEmptyNames st)
    {info : SymbolInfo} (hn : info.name ≠ "") :
    nonEmptyNames { st with functions := st.functions ++ [info] } := by
  obtain ⟨h1, h2, h3, h4, h5, h6, h7⟩ := hst
  refine ⟨h1, h2, h3, ?_, h5, h6, h7⟩
  intro s hs
  rcases List.mem_append.mp hs with h | h
  · exact h4 s h
  · rw [List.mem_singleton] at h
    subst h
    exact hn

theorem nonEmpty_push_enums {st : SymbolTable} (hst : nonEmptyNames st)
    {info : SymbolInfo} (hn : info.name ≠ "") :
    nonEmptyNames { st with enums := st.enums ++ [info] } := by
  obtain ⟨h1, h2, h3, h4, h5, h6, h7⟩ := hst
  refine ⟨h1, h2, h3, h4, ?_, h6, h7⟩
  intro s hs
  rcases List.mem_append.mp hs with h | h
  · exact h5 s h
  · rw [List.mem_singleton] at h
    subst h
    exact hn

theorem nonEmpty_push_extensions {st : SymbolTable} (hst : nonEmptyNames st)
    {info : SymbolInfo} (hn : info.name ≠ "") :
    nonEmptyNames { st with extensions := st.extensions ++ [info] } := by
  obtain ⟨h1, h2, h3, h4, h5, h6, h7⟩ := hst
  refine ⟨h1, h2, h3, h4, h5, ?_, h7⟩
  intro s hs
  rcases List.mem_append.mp hs with h | h
  · exact h6 s h
  · rw [List.mem_singleton] at h
    subst h
    exact hn

theorem nonEmpty_push_vars {st : SymbolTable} (hst : nonEmptyNames st)
    {info : SymbolInfo} (hn : info.name ≠ "") :
    nonEmptyNames { st with vars := st.vars ++ [info] } := by
  obtain ⟨h1, h2, h3, h4, h5, h6, h7⟩ := hst
  refine ⟨h1, h2, h3, h4, h5, h6, ?_⟩
  intro s hs
  rcases List.mem_append.mp hs with h | h
  · exact h7 s h
  · rw [List.mem_singleton] at h
    subst h
    exact hn

theorem classifyA_nonEmpty (f k n : String) (inh : List String) (acc tn : Option String)
    (off len : Option Int) {st : SymbolTable} (hst : nonEmptyNames st) (hn : n ≠ "") :
    nonEmptyNames (classifyA f k n inh acc tn off len st) := by
  unfold classifyA
  split_ifs
  · exact nonEmpty_push_classes hst hn
  · exact nonEmpty_push_structs hst hn
  · exact nonEmpty_push_protocols hst hn
  · exact nonEmpty_push_enums hst hn
  · exact nonEmpty_push_extensions hst hn
  · exact nonEmpty_push_functions hst hn
  · exact nonEmpty_push_vars hst hn
  · exact hst

mutual
theorem walkA_nonEmpty (f : String) : ∀ (node : NodeA) (st : SymbolTable),
    nonEmptyNames st → nonEmptyNames (walkA f node st)
  | NodeA.mk k n inh acc tn off len subs, st, hst => by
    show nonEmptyNames (walkAList f subs
      (if jsTruthy k && jsTruthy n then
        classifyA f (k.getD "") (n.getD "") (inh.getD [])
          (acc.map (fun a => jsReplaceOnce a swiftAccessTag)) tn off len st
      else st))
    refine walkAList_nonEmpty f subs _ ?_
    split
    · next hg =>
      have hn : jsTruthy n = true := by
        rw [Bool.and_eq_true] at hg
        exact hg.2
      exact classifyA_nonEmpty _ _ _ _ _ _ _ _ hst (jsTruthy_getD_ne hn)
    · exact hst
theorem walkAList_nonEmpty (f : String) : ∀ (nodes : List NodeA) (st : SymbolTable),
    nonEmptyNames st → nonEmptyNames (walkAList f nodes st)
  | [], _, hst => hst
  | x :: xs, st, hst => walkAList_nonEmpty f xs _ (walkA_nonEmpty f x st hst)
end

theorem extractSymbols_nonEmpty (ast : NodeA) (f : String) :
    nonEmptyNames (extractSymbols ast f) :=
  walkA_nonEmpty f ast SymbolTable.empty
    (by refine ⟨?_, ?_, ?_, ?_, ?_, ?_, ?_⟩ <;> intro s hs <;> simp [SymbolTable.empty] at hs)

theorem appendParen_ne (a b : String) : a ++ "(" ++ b ++ ")" ≠ "" := by
  intro h
  have hl := congrArg String.length h
  rw [String.length_append, String.length_append, String.length_append] at hl
  have h1 : "(".length = 1 := rfl
  have h2 : ")".length = 1 := rfl
  have h0 : "".length = 0 := rfl
  omega

theorem objcStepInterface_nonEmpty (file : String) (kind name : Option String)
    (isImpl : Bool) (sup : Option SuperRef) (protos : Option (List (Option String)))
    (locOff : Option Int) (range : Option RangeB) (inner : List NodeB)
    {s : SymbolTable × List (String × Members)} (hst : nonEmptyNames s.1) :
    nonEmptyNames (objcStepInterface file kind name isImpl sup protos locOff range
      inner s).1 := by
  unfold objcStepInterface
  split
  · next hg =>
    rw [Bool.and_eq_true, Bool.and_eq_true] at hg
    exact nonEmpty_push_classes hst (jsTruthy_getD_ne hg.1.2)
  · exact hst

theorem objcStepProtocol_nonEmpty (file : String) (kind name : Option String)
    (isImpl : Bool) (protos : Option (List (Option String)))
    (locOff : Option Int) (range : Option RangeB) (inner : List NodeB)
    {s : SymbolTable × List (String × Members)} (hst : nonEmptyNames s.1) :
    nonEmptyNames (objcStepProtocol file kind name isImpl protos locOff range
      inner s).1 := by
  unfold objcStepProtocol
  split
  · next hg =>
    rw [Bool.and_eq_true, Bool.and_eq_true] at hg
    exact nonEmpty_push_protocols hst (jsTruthy_getD_ne hg.1.2)
  · exact hst

theorem objcStepCategory_nonEmpty (file : String) (kind name : Option String)
    (isImpl : Bool) (protos : Option (List (Option String)))
    (iface : Option (Option String)) (locOff : Option Int) (range : Option RangeB)
    {s : SymbolTable × List (String × Members)} (hst : nonEmptyNames s.1) :
    nonEmptyNames (objcStepCategory file kind name isImpl protos iface locOff
      range s).1 := by
  unfold objcStepCategory
  split
  · exact nonEmpty_push_extensions hst (appendParen_ne _ _)
  · exact hst

mutual
theorem walkB_nonEmpty (f : String) : ∀ (node : NodeB)
    (s : SymbolTable × List (String × Members)),
    nonEmptyNames s.1 → nonEmptyNames (walkB f node s).1
  | NodeB.mk kind name isImpl sup protos iface locOff range rtq tq inner, s, hst => by
    show nonEmptyNames (
      (if decide (kind = some "ObjCCategoryDecl") && jsTruthy name && !isImpl &&
          !jsTruthy iface.join then
        objcStepProtocol f kind name isImpl protos locOff range inner
          (objcStepInterface f kind name isImpl sup protos locOff range inner s)
      else
        walkBList f inner
          (objcStepCategory f kind name isImpl protos iface locOff range
            (objcStepProtocol f kind name isImpl protos locOff range inner
              (objcStepInterface f kind name isImpl sup protos locOff range
                inner s)))).1)
    have hi := objcStepInterface_nonEmpty f kind name isImpl sup protos locOff range
      inner hst
    have hp := objcStepProtocol_nonEmpty f kind name isImpl protos locOff range
      inner hi
    split
    · exact hp
    · exact walkBList_nonEmpty f inner _
        (objcStepCategory_nonEmpty f kind name isImpl protos iface locOff range hp)
theorem walkBList_nonEmpty (f : String) : ∀ (nodes : List NodeB)
    (s : SymbolTable × List (String × Members)),
    nonEmptyNames s.1 → nonEmptyNames (walkBList f nodes s).1
  | [], _, hst => hst
  | x :: xs, s, hst => walkBList_nonEmpty f xs _ (walkB_nonEmpty f x s hst)
end

theorem extractObjCSymbols_nonEmpty (ast : NodeB) (f : String) :
    nonEmptyNames (extractObjCSymbols ast f).1 :=
  walkB_nonEmpty f ast (SymbolTable.empty, [])
    (by refine ⟨?_, ?_, ?_, ?_, ?_, ?_, ?_⟩ <;> intro s hs <;> simp [SymbolTable.empty] at hs)

theorem alUpsert_forall {α : Type} (P : String × α → Prop) (k : String) (v : α)
    (m : List (String × α)) (hm : ∀ q ∈ m, P q) (hkv : P (k, v)) :
    ∀ q ∈ alUpsert k v m, P q := by
  induction m with
  | nil =>
    intro q hq
    rw [alUpsert] at hq
    rcases List.mem_singleton.mp hq with rfl
    exact hkv
  | cons p rest ih =>
    intro q hq
    by_cases hp : p.1 = k
    · rw [alUpsert, if_pos hp] at hq
      rcases List.mem_cons.mp hq with rfl | hq'
      · exact hkv
      · exact hm q (List.mem_cons_of_mem p hq')
    · rw [alUpsert, if_neg hp] at hq
      rcases List.mem_cons.mp hq with rfl | hq'
      · exact hm q (List.mem_cons_self q rest)
      · exact ih (fun r hr => hm r (List.mem_cons_of_mem p hr)) q hq'

theorem alPush_forall_key {α : Type} (K : String → Prop) (k : String) (v : α)
    (m : List (String × List α)) (hm : ∀ q ∈ m, K q.1) (hk : K k) :
    ∀ q ∈ alPush k v m, K q.1 := by
  induction m with
  | nil =>
    intro q hq
    rw [alPush] at hq
    rcases List.mem_singleton.mp hq with rfl
    exact hk
  | cons p rest ih =>
    intro q hq
    by_cases hp : p.1 = k
    · rw [alPush, if_pos hp] at hq
      rcases List.mem_cons.mp hq with rfl | hq'
      · exact hk
      · exact hm q (List.mem_cons_of_mem p hq')
    · rw [alPush, if_neg hp] at hq
      rcases List.mem_cons.mp hq with rfl | hq'
      · exact hm q (List.mem_cons_self q rest)
      · exact ih (fun r hr => hm r (List.mem_cons_of_mem p hr)) q hq'

theorem alPush_forall_val {α : Type} (V : α → Prop) (k : String) (v : α)
    (m : List (String × List α)) (hm : ∀ q ∈ m, ∀ x ∈ q.2, V x) (hv : V v) :
    ∀ q ∈ alPush k v m, ∀ x ∈ q.2, V x := by
  induction m with
  | nil =>
    intro q hq
    rw [alPush] at hq
    rcases List.mem_singleton.mp hq with rfl
    intro x hx
    rcases List.mem_singleton.mp hx with rfl
    exact hv
  | cons p rest ih =>
    intro q hq
    by_cases hp : p.1 = k
    · rw [alPush, if_pos hp] at hq
      rcases List.mem_cons.mp hq with rfl | hq'
      · intro x hx
        rcases List.mem_append.mp hx with hx' | hx'
        · exact hm p (List.mem_cons_self p rest) x hx'
        · rcases List.mem_singleton.mp hx' with rfl
          exact hv
      · exact hm q (List.mem_cons_of_mem p hq')
    · rw [alPush, if_neg hp] at hq
      rcases List.mem_cons.mp hq with rfl | hq'
      · exact hm q (List.mem_cons_self q rest)
      · exact ih (fun r hr => hm r (List.mem_cons_of_mem p hr)) q hq'

theorem alEnsure_forall_val {α : Type} (V : α → Prop) (k : String)
    (m : List (String × List α)) (hm : ∀ q ∈ m, ∀ x ∈ q.2, V x) :
    ∀ q ∈ alEnsure k m, ∀ x ∈ q.2, V x := by
  induction m with
  | nil =>
    intro q hq
    rw [alEnsure] at hq
    rcases List.mem_singleton.mp hq with rfl
    intro x hx
    exact absurd hx (List.not_mem_nil x)
  | cons p rest ih =>
    intro q hq
    by_cases hp : p.1 = k
    · rw [alEnsure, if_pos hp] at hq
      exact hm q hq
    · rw [alEnsure, if_neg hp] at hq
      rcases List.mem_cons.mp hq with rfl | hq'
      · exact hm q (List.mem_cons_self q rest)
      · exact ih (fun r hr => hm r (List.mem_cons_of_mem p hr)) q hq'

theorem typeMapAddFile_forall (repo : String) (P : String × TypeMapEntry → Prop)
    (p : String × FileData)
    (hp : ∀ (kind : String) (c : SymbolInfo),
      (c ∈ p.2.symbols.classes ∧ kind = "class") ∨
      (c ∈ p.2.symbols.structs ∧ kind = "struct") ∨
      (c ∈ p.2.symbols.protocols ∧ kind = "protocol") ∨
      (c ∈ p.2.symbols.enums ∧ kind = "enum") →
      P (c.name, ⟨getRelativePath repo p.1, kind, c⟩))
    (tm : List (String × TypeMapEntry)) (htm : ∀ q ∈ tm, P q) :
    ∀ q ∈ typeMapAddFile repo tm p, P q := by
  unfold typeMapAddFile
  refine foldl_mem_inv P _ _ ?_ _
    (foldl_mem_inv P _ _ ?_ _
      (foldl_mem_inv P _ _ ?_ _
        (foldl_mem_inv P _ _ ?_ _ htm)))
  · intro acc c hc hacc
    exact alUpsert_forall P _ _ acc hacc (hp "enum" c (Or.inr (Or.inr (Or.inr ⟨hc, rfl⟩))))
  · intro acc c hc hacc
    exact alUpsert_forall P _ _ acc hacc (hp "protocol" c (Or.inr (Or.inr (Or.inl ⟨hc, rfl⟩))))
  · intro acc c hc hacc
    exact alUpsert_forall P _ _ acc hacc (hp "struct" c (Or.inr (Or.inl ⟨hc, rfl⟩)))
  · intro acc c hc hacc
    exact alUpsert_forall P _ _ acc hacc (hp "class" c (Or.inl ⟨hc, rfl⟩))

theorem buildTypeMap_nonEmpty (repo : String) (files : List (String × FileData))
    (hf : ∀ p ∈ files, nonEmptyNames p.2.symbols) :
    ∀ q ∈ buildTypeMap repo files, q.1 ≠ "" ∧ q.2.symbol.name ≠ "" := by
  unfold buildTypeMap
  refine foldl_mem_inv _ _ files ?_ [] (by simp)
  intro acc p hpmem hacc
  refine typeMapAddFile_forall repo _ p ?_ acc hacc
  intro kind c hc
  obtain ⟨h1, h2, h3, _, h5, _, _⟩ := hf p hpmem
  rcases hc with ⟨hc, _⟩ | ⟨hc, _⟩ | ⟨hc, _⟩ | ⟨hc, _⟩
  · exact ⟨h1 c hc, h1 c hc⟩
  · exact ⟨h2 c hc, h2 c hc⟩
  · exact ⟨h3 c hc, h3 c hc⟩
  · exact ⟨h5 c hc, h5 c hc⟩

theorem processSymbols_byName (rel : String) (idx : Indexes) (syms : List SymbolInfo)
    (kind : String) :
    (processSymbols rel idx syms kind).byName =
      syms.foldl (fun bn s => alPush s.name ⟨rel, kind⟩ bn) idx.byName := by
  suffices h : ∀ idx0 : Indexes,
      (syms.foldl (fun idx s =>
        ({ byName := alPush s.name ⟨rel, kind⟩ idx.byName
           byKind := alPush kind s.name idx.byKind
           byFile := alPush rel s.name idx.byFile } : Indexes)) idx0).byName =
      syms.foldl (fun bn s => alPush s.name ⟨rel, kind⟩ bn) idx0.byName by
    exact h { idx with byKind := alEnsure kind idx.byKind }
  induction syms with
  | nil => intro idx0; rfl
  | cons s rest ih =>
    intro idx0
    rw [List.foldl_cons, List.foldl_cons, ih]

theorem processSymbols_byKind (rel : String) (idx : Indexes) (syms : List SymbolInfo)
    (kind : String) :
    (processSymbols rel idx syms kind).byKind =
      syms.foldl (fun bk s => alPush kind s.name bk) (alEnsure kind idx.byKind) := by
  suffices h : ∀ idx0 : Indexes,
      (syms.foldl (fun idx s =>
        ({ byName := alPush s.name ⟨rel, kind⟩ idx.byName
           byKind := alPush kind s.name idx.byKind
           byFile := alPush rel s.name idx.byFile } : Indexes)) idx0).byKind =
      syms.foldl (fun bk s => alPush kind s.name bk) idx0.byKind by
    exact h { idx with byKind := alEnsure kind idx.byKind }
  induction syms with
  | nil => intro idx0; rfl
  | cons s rest ih =>
    intro idx0
    rw [List.foldl_cons, List.foldl_cons, ih]

theorem pushNameFold_forall_key (rel kind : String) (K : String → Prop)
    (syms : List SymbolInfo) (hsyms : ∀ s ∈ syms, K s.name)
    (bn : List (String × List ByNameEntry)) (hbn : ∀ q ∈ bn, K q.1) :
    ∀ q ∈ syms.foldl (fun bn s => alPush s.name ⟨rel, kind⟩ bn) bn, K q.1 := by
  refine foldl_mem_inv (fun q => K q.1) _ syms ?_ bn hbn
  intro acc s hs hacc
  exact alPush_forall_key K s.name _ acc hacc (hsyms s hs)

theorem pushKindFold_forall_val (kind : String) (V : String → Prop)
    (syms : List SymbolInfo) (hsyms : ∀ s ∈ syms, V s.name)
    (bk : List (String × List String)) (hbk : ∀ q ∈ bk, ∀ x ∈ q.2, V x) :
    ∀ q ∈ syms.foldl (fun bk s => alPush kind s.name bk) bk, ∀ x ∈ q.2, V x := by
  refine foldl_mem_inv (fun q => ∀ x ∈ q.2, V x) _ syms ?_ bk hbk
  intro acc s hs hacc
  exact alPush_forall_val V kind s.name acc hacc (hsyms s hs)

theorem pushFileFold_forall_val (rel : String) (V : String → Prop)
    (syms : List SymbolInfo) (hsyms : ∀ s ∈ syms, V s.name)
    (bf : List (String × List String)) (hbf : ∀ q ∈ bf, ∀ x ∈ q.2, V x) :
    ∀ q ∈ syms.foldl (fun bf s => alPush rel s.name bf) bf, ∀ x ∈ q.2, V x := by
  refine foldl_mem_inv (fun q => ∀ x ∈ q.2, V x) _ syms ?_ bf hbf
  intro acc s hs hacc
  exact alPush_forall_val V rel s.name acc hacc (hsyms s hs)

theorem indexesAddFile_byName_red (repo : String) (idx : Indexes) (p : String × FileData) :
    (indexesAddFile repo idx p).byName =
      p.2.symbols.functions.foldl
        (fun bn s => alPush s.name ⟨getRelativePath repo p.1, "function"⟩ bn)
        (p.2.symbols.enums.foldl
          (fun bn s => alPush s.name ⟨getRelativePath repo p.1, "enum"⟩ bn)
          (p.2.symbols.protocols.foldl
            (fun bn s => alPush s.name ⟨getRelativePath repo p.1, "protocol"⟩ bn)
            (p.2.symbols.structs.foldl
              (fun bn s => alPush s.name ⟨getRelativePath repo p.1, "struct"⟩ bn)
              (p.2.symbols.classes.foldl
                (fun bn s => alPush s.name ⟨getRelativePath repo p.1, "class"⟩ bn)
                idx.byName)))) := by
  simp only [indexesAddFile, processSymbols_byName]

theorem indexesAddFile_byName_keys (repo : String) (K : String → Prop) (idx : Indexes)
    (p : String × FileData) (hp : nonEmptyNames p.2.symbols)
    (hK : ∀ x : String, x ≠ "" → K x)
    (hidx : ∀ q ∈ idx.byName, K q.1) :
    ∀ q ∈ (indexesAddFile repo idx p).byName, K q.1 := by
  rw [indexesAddFile_byName_red]
  obtain ⟨h1, h2, h3, h4, h5, _, _⟩ := hp
  refine pushNameFold_forall_key _ _ K _ (fun s hs => hK s.name (h4 s hs)) _
    (pushNameFold_forall_key _ _ K _ (fun s hs => hK s.name (h5 s hs)) _
      (pushNameFold_forall_key _ _ K _ (fun s hs => hK s.name (h3 s hs)) _
        (pushNameFold_forall_key _ _ K _ (fun s hs => hK s.name (h2 s hs)) _
          (pushNameFold_forall_key _ _ K _ (fun s hs => hK s.name (h1 s hs)) _ hidx))))

theorem buildIndexes_byName_keys (repo : String) (files : List (String × FileData))
    (hf : ∀ p ∈ files, nonEmptyNames p.2.symbols) :
    ∀ q ∈ (buildIndexes repo files).byName, q.1 ≠ "" := by
  suffices h : ∀ (fs : List (String × FileData)), (∀ p ∈ fs, nonEmptyNames p.2.symbols) →
      ∀ idx : Indexes, (∀ q ∈ idx.byName, q.1 ≠ "") →
      ∀ q ∈ (fs.foldl (indexesAddFile repo) idx).byName, q.1 ≠ "" by
    exact h files hf ⟨[], [], []⟩ (by simp)
  intro fs
  induction fs with
  | nil => intro _ idx hidx q hq; exact hidx q hq
  | cons p rest ih =>
    intro hfs idx hidx
    rw [List.foldl_cons]
    refine ih (fun r hr => hfs r (List.mem_cons_of_mem p hr)) _ ?_
    exact indexesAddFile_byName_keys repo _ idx p (hfs p (List.mem_cons_self p rest))
      (fun x hx => hx) hidx

theorem indexesAddFile_byKind_red (repo : String) (idx : Indexes) (p : String × FileData) :
    (indexesAddFile repo idx p).byKind =
      p.2.symbols.functions.foldl
        (fun bk s => alPush "function" s.name bk)
        (alEnsure "function"
          (p.2.symbols.enums.foldl (fun bk s => alPush "enum" s.name bk)
            (alEnsure "enum"
              (p.2.symbols.protocols.foldl (fun bk s => alPush "protocol" s.name bk)
                (alEnsure "protocol"
                  (p.2.symbols.structs.foldl (fun bk s => alPush "struct" s.name bk)
                    (alEnsure "struct"
                      (p.2.symbols.classes.foldl (fun bk s => alPush "class" s.name bk)
                        (alEnsure "class" idx.byKind))))))))) := by
  simp only [indexesAddFile, processSymbols_byKind]

theorem indexesAddFile_byKind_vals (repo : String) (idx : Indexes)
    (p : String × FileData) (hp : nonEmptyNames p.2.symbols)
    (hidx : ∀ q ∈ idx.byKind, ∀ x ∈ q.2, x ≠ "") :
    ∀ q ∈ (indexesAddFile repo idx p).byKind, ∀ x ∈ q.2, x ≠ "" := by
  rw [indexesAddFile_byKind_red]
  obtain ⟨h1, h2, h3, h4, h5, _, _⟩ := hp
  refine pushKindFold_forall_val _ _ _ h4 _
    (alEnsure_forall_val _ _ _
      (pushKindFold_forall_val _ _ _ h5 _
        (alEnsure_forall_val _ _ _
          (pushKindFold_forall_val _ _ _ h3 _
            (alEnsure_forall_val _ _ _
              (pushKindFold_forall_val _ _ _ h2 _
                (alEnsure_forall_val _ _ _
                  (pushKindFold_forall_val _ _ _ h1 _
                    (alEnsure_forall_val _ _ _ hidx)))))))))

theorem buildIndexes_byKind_vals (repo : String) (files : List (String × FileData))
    (hf : ∀ p ∈ files, nonEmptyNames p.2.symbols) :
    ∀ q ∈ (buildIndexes repo files).byKind, ∀ x ∈ q.2, x ≠ "" := by
  suffices h : ∀ (fs : List (String × FileData)), (∀ p ∈ fs, nonEmptyNames p.2.symbols) →
      ∀ idx : Indexes, (∀ q ∈ idx.byKind, ∀ x ∈ q.2, x ≠ "") →
      ∀ q ∈ (fs.foldl (indexesAddFile repo) idx).byKind, ∀ x ∈ q.2, x ≠ "" by
    exact h files hf ⟨[], [], []⟩ (by simp)
  intro fs
  induction fs with
  | nil => intro _ idx hidx q hq; exact hidx q hq
  | cons p rest ih =>
    intro hfs idx hidx
    rw [List.foldl_cons]
    refine ih (fun r hr => hfs r (List.mem_cons_of_mem p hr)) _ ?_
    exact indexesAddFile_byKind_vals repo idx p (hfs p (List.mem_cons_self p rest)) hidx

theorem indexesAddFile_byFile_vals (repo : String) (idx : Indexes)
    (p : String × FileData) (hp : nonEmptyNames p.2.symbols)
    (hidx : ∀ q ∈ idx.byFile, ∀ x ∈ q.2, x ≠ "") :
    ∀ q ∈ (indexesAddFile repo idx p).byFile, ∀ x ∈ q.2, x ≠ "" := by
  rw [indexesAddFile_byFile_red]
  obtain ⟨h1, h2, h3, h4, h5, _, _⟩ := hp
  refine pushFileFold_forall_val _ _ _ h4 _
    (pushFileFold_forall_val _ _ _ h5 _
      (pushFileFold_forall_val _ _ _ h3 _
        (pushFileFold_forall_val _ _ _ h2 _
          (pushFileFold_forall_val _ _ _ h1 _
            (alUpsert_forall _ _ _ _ hidx (by simp))))))

theorem buildIndexes_byFile_vals (repo : String) (files : List (String × FileData))
    (hf : ∀ p ∈ files, nonEmptyNames p.2.symbols) :
    ∀ q ∈ (buildIndexes repo files).byFile, ∀ x ∈ q.2, x ≠ "" := by
  suffices h : ∀ (fs : List (String × FileData)), (∀ p ∈ fs, nonEmptyNames p.2.symbols) →
      ∀ idx : Indexes, (∀ q ∈ idx.byFile, ∀ x ∈ q.2, x ≠ "") →
      ∀ q ∈ (fs.foldl (indexesAddFile repo) idx).byFile, ∀ x ∈ q.2, x ≠ "" by
    exact h files hf ⟨[], [], []⟩ (by simp)
  intro fs
  induction fs with
  | nil => intro _ idx hidx q hq; exact hidx q hq
  | cons p rest ih =>
    intro hfs idx hidx
    rw [List.foldl_cons]
    refine ih (fun r hr => hfs r (List.mem_cons_of_mem p hr)) _ ?_
    exact indexesAddFile_byFile_vals repo idx p (hfs p (List.mem_cons_self p rest)) hidx

/-- C10: both extractors only record symbols with non-empty names (an
absent and an empty-string name tag are skipped identically), and the
non-emptiness propagates to the type map and to all three indexes. -/
theorem nonempty_symbol_names :
    (∀ (ast : NodeA) (f : String), nonEmptyNames (extractSymbols ast f)) ∧
    (∀ (ast : NodeB) (f : String), nonEmptyNames (extractObjCSymbols ast f).1) ∧
    (∀ (f k : String), extractSymbols (leafA (some k) (some "")) f =
        extractSymbols (leafA (some k) none) f) ∧
    (∀ (f k : String), extractObjCSymbols (leafB (some k) (some "")) f =
        extractObjCSymbols (leafB (some k) none) f) ∧
    (∀ (repo : String) (files : List (String × FileData)),
      (∀ p ∈ files, nonEmptyNames p.2.symbols) →
      (∀ q ∈ buildTypeMap repo files, q.1 ≠ "" ∧ q.2.symbol.name ≠ "") ∧
      (∀ q ∈ (buildIndexes repo files).byName, q.1 ≠ "") ∧
      (∀ q ∈ (buildIndexes repo files).byKind, ∀ x ∈ q.2, x ≠ "") ∧
      (∀ q ∈ (buildIndexes repo files).byFile, ∀ x ∈ q.2, x ≠ "")) := by
  refine ⟨extractSymbols_nonEmpty, extractObjCSymbols_nonEmpty,
    fun f k => rfl, fun f k => rfl, ?_⟩
  intro repo files hf
  exact ⟨buildTypeMap_nonEmpty repo files hf, buildIndexes_byName_keys repo files hf,
    buildIndexes_byKind_vals repo files hf, buildIndexes_byFile_vals repo files hf⟩

/-- Witness for C10: the fixture type-map entry for `Kid` carries a
non-empty key and symbol name. -/
theorem nonempty_symbol_names_witness :
    ("Kid", (⟨"A.swift", "class",
        ⟨"Kid", "source.lang.swift.decl.class", "/r/A.swift", ["Base", "Missing"],
          none, none, none, none, none⟩⟩ : TypeMapEntry)).1 ≠ "" ∧
    ("Kid", (⟨"A.swift", "class",
        ⟨"Kid", "source.lang.swift.decl.class", "/r/A.swift", ["Base", "Missing"],
          none, none, none, none, none⟩⟩ : TypeMapEntry)).2.symbol.name ≠ "" :=
  (nonempty_symbol_names.2.2.2.2 "/r" [("/r/A.swift", fdC1)]
    (by
      intro p hp
      rcases List.mem_singleton.mp hp with rfl
      exact extractSymbols_nonEmpty astC1 "/r/A.swift")).1
    ("Kid", ⟨"A.swift", "class",
      ⟨"Kid", "source.lang.swift.decl.class", "/r/A.swift", ["Base", "Missing"],
        none, none, none, none, none⟩⟩) (by decide)
